import Mathlib

/-!
# Range FizzBuzz service (`main.go`)

A shallow embedding of the request path of the service:

* `SingleFizzBuzz`, the per-integer evaluator;
* `FizzBuzzHandler`, the HTTP handler: method check, `strconv.Atoi` on the two
  query parameters, the bounds check, the goroutine fan-out over the range and
  the join;
* `responseWriter` and `Logging`, the capturing writer and the middleware.

Go's `int` is the 64-bit two's complement integer: values are `Int`s, and each
arithmetic result that can leave the range is passed through `wrap`.  The
goroutines of the handler are a step machine driven by an explicit schedule, so
that a statement quantified over schedules speaks about every interleaving.
-/

namespace FizzBuzz

/-! ## Machine integers -/

/-- The smallest value of Go's `int` on a 64-bit platform. -/
def minInt : Int := -9223372036854775808

/-- The largest value of Go's `int` on a 64-bit platform. -/
def maxInt : Int := 9223372036854775807

/-- Two's complement reduction of a mathematical integer to the 64-bit range:
the value Go's `int` arithmetic yields for a result whose true value is `x`. -/
def wrap (x : Int) : Int :=
  (x + 9223372036854775808) % 18446744073709551616 - 9223372036854775808

/-! ## `strconv` -/

/-- Decimal rendering, `strconv.Itoa`: the digits of the absolute value in base
ten, most significant first, preceded by `-` for a negative number. -/
def Itoa (n : Int) : String :=
  if n < 0 then "-" ++ (Nat.toDigits 10 n.natAbs).asString
  else (Nat.toDigits 10 n.natAbs).asString

/-- An ASCII decimal digit. -/
def isDigit (c : Char) : Bool := decide ('0' ≤ c) && decide (c ≤ '9')

/-- Value of a digit string read in base ten. -/
def parseDigits (ds : List Char) : Nat :=
  ds.foldl (fun acc c => 10 * acc + (c.toNat - 48)) 0

/-- Integer parsing, `strconv.Atoi`: an optional sign `+` or `-`, then one or
more ASCII digits, and the value must fit the 64-bit range; `none` stands for
the error result (`ErrSyntax` or `ErrRange`). -/
def Atoi (s : String) : Option Int :=
  let cs := s.data
  let neg : Bool := cs.head? = some '-'
  let ds := if cs.head? = some '-' ∨ cs.head? = some '+' then cs.tail else cs
  if ds = [] ∨ ds.all isDigit = false then none
  else
    let v : Int := if neg then -(parseDigits ds : Int) else (parseDigits ds : Int)
    if minInt ≤ v ∧ v ≤ maxInt then some v else none

/-! ## The evaluator -/

/-- The function `SingleFizzBuzz` of `main.go`.  Go's `%` is the truncated
remainder, `Int.tmod`. -/
def SingleFizzBuzz (n : Int) : String :=
  if Int.tmod n 3 = 0 ∧ Int.tmod n 5 = 0 then "FizzBuzz"
  else if Int.tmod n 3 = 0 then "Fizz"
  else if Int.tmod n 5 = 0 then "Buzz"
  else Itoa n

/-! ## Requests and response writers -/

/-- The part of `*http.Request` the handler reads: the method and the decoded
query parameters of the URL, in the order they appear. -/
structure Request where
  Method : String
  Query : List (String × String)
  deriving DecidableEq

/-- The call `r.URL.Query().Get(key)`: the first value stored under `key`, and
the empty string when there is none. -/
def Request.queryGet (r : Request) (key : String) : String :=
  match r.Query.find? (fun kv => kv.1 = key) with
  | some kv => kv.2
  | none => ""

/-- A call a handler makes on its `http.ResponseWriter`.  Header fields are set
through `Header()`, which `responseWriter` inherits unchanged from the writer it
embeds; they carry neither the status nor the body and are left out. -/
inductive Call where
  | WriteHeader (statusCode : Int)
  | Write (b : String)
  deriving DecidableEq

/-- The calls of `http.Error(w, msg, code)` that bear on status and body:
`w.WriteHeader(code)` and then `fmt.Fprintln(w, msg)`, a single `Write` of the
message followed by a line feed. -/
def httpError (msg : String) (code : Int) : List Call :=
  [Call.WriteHeader code, Call.Write (msg ++ "\n")]

/-- The response as the server's own `http.ResponseWriter` holds it: the status
line once it is fixed, and the body bytes written so far. -/
structure Sink where
  status : Option Int
  body : String
  deriving DecidableEq

/-- A fresh response: no status fixed yet, nothing written. -/
def Sink.fresh : Sink := { status := none, body := "" }

/-- One call on the server's writer.  The first `WriteHeader` fixes the status
and a later one is dropped as superfluous; a `Write` before any `WriteHeader`
fixes the status to 200 and then appends its bytes.  The statuses the service
uses are 200, 400 and 405; informational codes and the statuses that forbid a
body are not treated apart. -/
def Sink.call (s : Sink) : Call → Sink
  | Call.WriteHeader c => if s.status.isSome then s else { s with status := some c }
  | Call.Write b => { status := some (s.status.getD 200), body := s.body ++ b }

/-- A sequence of calls on the server's writer, in order. -/
def Sink.serve (s : Sink) (cs : List Call) : Sink := cs.foldl Sink.call s

/-- The type `responseWriter` of `main.go`: the embedded writer and the two
captured fields. -/
structure responseWriter where
  ResponseWriter : Sink
  statusCode : Int
  body : String
  deriving DecidableEq

/-- The method `(*responseWriter).WriteHeader`: it stores the code and returns. -/
def responseWriter.WriteHeader (rr : responseWriter) (statusCode : Int) : responseWriter :=
  { rr with statusCode := statusCode }

/-- The method `(*responseWriter).Write`: it appends to the buffer and passes
the bytes on to the embedded writer. -/
def responseWriter.Write (rr : responseWriter) (b : String) : responseWriter :=
  { rr with body := rr.body ++ b, ResponseWriter := rr.ResponseWriter.call (Call.Write b) }

/-- Dispatch of a call to the method of `responseWriter` it names. -/
def responseWriter.call (rr : responseWriter) : Call → responseWriter
  | Call.WriteHeader c => rr.WriteHeader c
  | Call.Write b => rr.Write b

/-! ## The goroutines of the handler -/

/-- Where the handler's own goroutine stands: in the spawn loop or the wait loop
with loop variable `i`, at the join, or past its last statement. -/
inductive Pc where
  | spawn (i : Int)
  | wait (i : Int)
  | join
  | returned
  deriving DecidableEq

/-- A goroutine started by the spawn loop with argument `i`; `wrote` tells
whether its assignment to `results` has been executed (its send on `done` is
then what remains). -/
structure Task where
  i : Int
  wrote : Bool
  deriving DecidableEq

/-- The state shared by the goroutines of one request.  `done` counts the
values buffered in the channel and `cap` is its capacity.  `started`,
`received` and `writes` record what has happened (goroutines started, values
received from the channel, and each assignment as the pair of the goroutine's
argument and the slot it wrote); they do not influence any step. -/
structure Machine where
  fromV : Int
  toV : Int
  pc : Pc
  tasks : List Task
  results : List String
  done : Nat
  cap : Nat
  crashed : Bool
  started : Nat
  received : Nat
  writes : List (Int × Nat)
  deriving DecidableEq

/-- The state after `results` and `done` are made with length and capacity
`n`, at the head of the spawn loop. -/
def Machine.init (fromV toV : Int) (n : Nat) : Machine :=
  { fromV := fromV, toV := toV, pc := Pc.spawn fromV, tasks := [],
    results := List.replicate n "", done := 0, cap := n, crashed := false,
    started := 0, received := 0, writes := [] }

/-- What the scheduler runs next: the handler's goroutine, or the goroutine at
position `k` among the live ones. -/
inductive Choice where
  | main
  | task (k : Nat)
  deriving DecidableEq

/-- One step of the handler's goroutine.
* Spawn loop `for i := from; i <= to; i++ { go func(i int) {...}(i) }`: test the
  condition, start a goroutine, increment (with wrap-around).
* Wait loop `for i := from; i <= to; i++ { <-done }`: test the condition,
  receive (blocked while the channel is empty), increment.
* Join: `strings.Join`, the two writes, and return. -/
def Machine.stepMain (m : Machine) : Machine :=
  match m.pc with
  | Pc.spawn i =>
    if i ≤ m.toV then
      { m with tasks := m.tasks ++ [{ i := i, wrote := false }],
               pc := Pc.spawn (wrap (i + 1)), started := m.started + 1 }
    else { m with pc := Pc.wait m.fromV }
  | Pc.wait i =>
    if i ≤ m.toV then
      if 0 < m.done then
        { m with done := m.done - 1, pc := Pc.wait (wrap (i + 1)),
                 received := m.received + 1 }
      else m
    else { m with pc := Pc.join }
  | Pc.join => { m with pc := Pc.returned }
  | Pc.returned => m

/-- One step of the goroutine at position `k`: first
`results[i-from] = SingleFizzBuzz(i)`, whose index is computed in machine
arithmetic and bounds-checked (a failed check is a panic outside the handler's
goroutine, which ends the process), then `done <- true`, which is blocked while
the channel is full and ends the goroutine. -/
def Machine.stepTask (m : Machine) (k : Nat) : Machine :=
  match m.tasks[k]? with
  | none => m
  | some t =>
    if t.wrote then
      if m.done < m.cap then { m with done := m.done + 1, tasks := m.tasks.eraseIdx k }
      else m
    else
      let idx := wrap (t.i - m.fromV)
      if 0 ≤ idx ∧ idx < (m.results.length : Int) then
        { m with results := m.results.set idx.toNat (SingleFizzBuzz t.i),
                 tasks := m.tasks.set k { t with wrote := true },
                 writes := m.writes ++ [(t.i, idx.toNat)] }
      else { m with crashed := true }

/-- One scheduler step.  Nothing runs once the process has crashed or the
handler has returned. -/
def Machine.step (m : Machine) (c : Choice) : Machine :=
  if m.crashed = true ∨ m.pc = Pc.returned then m
  else
    match c with
    | Choice.main => m.stepMain
    | Choice.task k => m.stepTask k

/-- The state reached by following a schedule. -/
def Machine.run (m : Machine) (sched : List Choice) : Machine := sched.foldl Machine.step m

/-! ## The handler -/

/-- How the run of a handler ended: it returned; it panicked in its own
goroutine; the process was ended by a panic in another goroutine; or it has not
finished within the schedule given. -/
inductive Ending where
  | returned
  | panicked
  | crashed
  | running
  deriving DecidableEq

/-- What a handler did for a request: the calls it made on its writer, in
order, how it ended, whether it reached the `strconv.Atoi` calls, and how many
goroutines it started. -/
structure Run where
  calls : List Call
  ending : Ending
  parsed : Bool
  started : Nat
  deriving DecidableEq

/-- A handler, given by what it does for each request. -/
abbrev Handler := Request → Run

/-- What the handler has done once its goroutines have reached state `m`: no
call on the writer if the process crashed or the handler is still in its loops;
after the join, `fmt.Fprint(w, response)` with the joined slots and then
`w.WriteHeader(http.StatusOK)`. -/
def Machine.outcome (m : Machine) : Run :=
  if m.crashed then
    { calls := [], ending := Ending.crashed, parsed := true, started := m.started }
  else if m.pc = Pc.returned then
    { calls := [Call.Write (String.intercalate " " m.results), Call.WriteHeader 200],
      ending := Ending.returned, parsed := true, started := m.started }
  else
    { calls := [], ending := Ending.running, parsed := true, started := m.started }

/-- The function `FizzBuzzHandler` of `main.go`, with its goroutines run in the
order `sched` prescribes.  The subtraction and the addition are those of the
machine; `make([]string, n)` panics for a negative `n`, in the goroutine of the
handler. -/
def FizzBuzzHandler (sched : List Choice) : Handler := fun r =>
  if r.Method ≠ "GET" then
    { calls := httpError "Method Not Allowed" 405, ending := Ending.returned,
      parsed := false, started := 0 }
  else
    let fromStr := r.queryGet "from"
    let toStr := r.queryGet "to"
    match Atoi fromStr, Atoi toStr with
    | some fromV, some toV =>
      if fromV > toV ∨ wrap (toV - fromV) > 100 then
        { calls := httpError "invalid 'from' or 'to' parameters" 400,
          ending := Ending.returned, parsed := true, started := 0 }
      else
        let n := wrap (wrap (toV - fromV) + 1)
        if n < 0 then
          { calls := [], ending := Ending.panicked, parsed := true, started := 0 }
        else ((Machine.init fromV toV n.toNat).run sched).outcome
    | _, _ =>
      { calls := httpError "invalid 'from' or 'to' parameters" 400,
        ending := Ending.returned, parsed := true, started := 0 }

/-- The response a handler run leaves on a fresh server writer. -/
def Run.response (x : Run) : Sink := Sink.fresh.serve x.calls

/-! ## The middleware -/

/-- The fields of the log line that come from the captured response. -/
structure LogRecord where
  responseStatus : Int
  responseBody : String
  deriving DecidableEq

/-- What serving a request through `Logging(next)` leaves behind: the wrapping
writer after `next` (its embedded writer is the response delivered), and the log
line, printed only if `next` returned. -/
structure Logged where
  writer : responseWriter
  log : Option LogRecord
  deriving DecidableEq

/-- The function `Logging` of `main.go`, applied to `next`, serving `r` on `w`:
wrap `w` with a zero status code and an empty buffer, let `next` make its calls
on the wrapper, then print the log line.  The time stamps are left out. -/
def Logging (next : Handler) (w : Sink) (r : Request) : Logged :=
  let writer : responseWriter := { ResponseWriter := w, statusCode := 0, body := "" }
  let x := next r
  let writer := x.calls.foldl responseWriter.call writer
  { writer := writer,
    log := if x.ending = Ending.returned then
             some { responseStatus := writer.statusCode, responseBody := writer.body }
           else none }

/-! ## Notions used in the statements -/

/-- A request `METHOD /range-fizzbuzz?from=<fromStr>&to=<toStr>`. -/
def rangeRequest (method fromStr toStr : String) : Request :=
  { Method := method, Query := [("from", fromStr), ("to", toStr)] }

/-- The integers of the range `[fromV, toV]`, in ascending order. -/
def rangeInts (fromV toV : Int) : List Int :=
  (List.range (toV - fromV + 1).toNat).map (fun (k : Nat) => fromV + (k : Int))

/-- The schedule that lets the handler run alone whenever it can and otherwise
runs the oldest live goroutine: `n + 1` steps of the spawn loop, two steps for
each of the `n` goroutines, `n + 1` steps of the wait loop and the join. -/
def fifoSchedule (n : Nat) : List Choice :=
  List.replicate (n + 1) Choice.main ++ List.replicate (2 * n) (Choice.task 0)
    ++ List.replicate (n + 2) Choice.main

/-- The code of the last `WriteHeader` among the calls, and `c` if there is
none. -/
def lastStatus : List Call → Int → Int
  | [], c => c
  | Call.WriteHeader c :: cs, _ => lastStatus cs c
  | Call.Write _ :: cs, c => lastStatus cs c

/-- The concatenation, in order, of everything the calls pass to `Write`. -/
def written : List Call → String
  | [] => ""
  | Call.WriteHeader _ :: cs => written cs
  | Call.Write b :: cs => b ++ written cs

/-- Whether a call is a `Write`. -/
def Call.isWrite : Call → Bool
  | Call.Write _ => true
  | Call.WriteHeader _ => false

/-- A handler that writes a body and never calls `WriteHeader`. -/
def bodyOnly : Handler := fun _ =>
  { calls := [Call.Write "ok"], ending := Ending.returned, parsed := false, started := 0 }

/-- A handler that calls `WriteHeader` twice, with 404 and then 500, before it
writes its body. -/
def twoHeaders : Handler := fun _ =>
  { calls := [Call.WriteHeader 404, Call.WriteHeader 500, Call.Write "ok"],
    ending := Ending.returned, parsed := false, started := 0 }

/-- A handler that writes its body and calls `WriteHeader(404)` afterwards. -/
def lateHeader : Handler := fun _ =>
  { calls := [Call.Write "ok", Call.WriteHeader 404],
    ending := Ending.returned, parsed := false, started := 0 }

/-! ## The step relation, the invariant and the measure -/

/-- The effective steps of `Machine.step`, one constructor per branch that
changes the state. -/
inductive Step (m : Machine) : Machine → Prop where
  | spawn (i : Int) (hpc : m.pc = Pc.spawn i) (hle : i ≤ m.toV) :
      Step m { m with tasks := m.tasks ++ [{ i := i, wrote := false }],
                      pc := Pc.spawn (wrap (i + 1)), started := m.started + 1 }
  | spawnExit (i : Int) (hpc : m.pc = Pc.spawn i) (hgt : ¬ i ≤ m.toV) :
      Step m { m with pc := Pc.wait m.fromV }
  | recv (i : Int) (hpc : m.pc = Pc.wait i) (hle : i ≤ m.toV) (hd : 0 < m.done) :
      Step m { m with done := m.done - 1, pc := Pc.wait (wrap (i + 1)),
                      received := m.received + 1 }
  | waitExit (i : Int) (hpc : m.pc = Pc.wait i) (hgt : ¬ i ≤ m.toV) :
      Step m { m with pc := Pc.join }
  | join (hpc : m.pc = Pc.join) : Step m { m with pc := Pc.returned }
  | write (k : Nat) (t : Task) (hk : m.tasks[k]? = some t) (hw : t.wrote = false)
      (hb : 0 ≤ wrap (t.i - m.fromV) ∧ wrap (t.i - m.fromV) < (m.results.length : Int)) :
      Step m { m with results := m.results.set (wrap (t.i - m.fromV)).toNat (SingleFizzBuzz t.i),
                      tasks := m.tasks.set k { t with wrote := true },
                      writes := m.writes ++ [(t.i, (wrap (t.i - m.fromV)).toNat)] }
  | crash (k : Nat) (t : Task) (hk : m.tasks[k]? = some t) (hw : t.wrote = false)
      (hb : ¬ (0 ≤ wrap (t.i - m.fromV) ∧ wrap (t.i - m.fromV) < (m.results.length : Int))) :
      Step m { m with crashed := true }
  | send (k : Nat) (t : Task) (hk : m.tasks[k]? = some t) (hw : t.wrote = true)
      (hd : m.done < m.cap) :
      Step m { m with done := m.done + 1, tasks := m.tasks.eraseIdx k }

/-- The first integer the spawn loop has not yet started a goroutine for. -/
def Pc.bound (toV : Int) : Pc → Int
  | Pc.spawn i => i
  | _ => toV + 1

/-- The invariant of the goroutines of an accepted request `[F, T]` whose upper
bound is below the largest integer. -/
structure Inv (F T : Int) (m : Machine) : Prop where
  hF : m.fromV = F
  hT : m.toV = T
  hcr : m.crashed = false
  hcap : (m.cap : Int) = T - F + 1
  hlen : (m.results.length : Int) = T - F + 1
  hspawn : ∀ i, m.pc = Pc.spawn i → F ≤ i ∧ i ≤ T + 1 ∧ m.received = 0
  hwait : ∀ i, m.pc = Pc.wait i → F ≤ i ∧ i ≤ T + 1 ∧ (m.received : Int) = i - F
  hjoin : m.pc = Pc.join ∨ m.pc = Pc.returned → (m.received : Int) = T + 1 - F
  hst : (m.started : Int) = m.pc.bound T - F
  hcount : m.done + m.received + m.tasks.length = m.started
  htask : ∀ t ∈ m.tasks, F ≤ t.i ∧ t.i < m.pc.bound T
  htnd : (m.tasks.map Task.i).Nodup
  hwr : ∀ w ∈ m.writes, F ≤ w.1 ∧ w.1 < m.pc.bound T ∧ w.2 = (w.1 - F).toNat
  hwnd : (m.writes.map Prod.fst).Nodup
  hunw : ∀ t ∈ m.tasks, t.wrote = false → t.i ∉ m.writes.map Prod.fst
  hwrt : ∀ t ∈ m.tasks, t.wrote = true → t.i ∈ m.writes.map Prod.fst
  hcov : ∀ i, F ≤ i → i < m.pc.bound T → i ∈ m.tasks.map Task.i ∨ i ∈ m.writes.map Prod.fst
  hres : ∀ k : Nat, (k : Int) < T - F + 1 →
    m.results[k]? = some (if F + k ∈ m.writes.map Prod.fst then SingleFizzBuzz (F + k) else "")

/-- Steps a goroutine still has to take: the assignment and the send, or the
send alone. -/
def Task.weight (t : Task) : Nat := if t.wrote then 1 else 2

/-- Steps the handler's own goroutine still has to take from a given point,
counting three for each goroutine not yet started (the start and that
goroutine's two steps). -/
def Pc.rem (fromV toV : Int) : Pc → Nat
  | Pc.spawn i => 3 * (toV + 1 - i).toNat + (toV + 1 - fromV).toNat + 3
  | Pc.wait i => (toV + 1 - i).toNat + 2
  | Pc.join => 1
  | Pc.returned => 0

/-- An upper bound on the number of effective steps left before the handler
returns. -/
def Machine.measure (m : Machine) : Nat :=
  m.pc.rem m.fromV m.toV + (m.tasks.map Task.weight).sum

/-! ## Facts about `strconv.Itoa` -/

/-- A decimal digit character is neither `F` nor `B`. -/
theorem digitChar_ne_letter (k : Nat) (hk : k < 10) :
    Nat.digitChar k ≠ 'F' ∧ Nat.digitChar k ≠ 'B' := by
  interval_cases k <;> decide

/-- The digit list of a number starts with a decimal digit character. -/
theorem toDigitsCore_head (fuel : Nat) : ∀ (n : Nat) (ds : List Char),
    ∃ k, k < 10 ∧ ∃ rest, Nat.toDigitsCore 10 (fuel + 1) n ds = Nat.digitChar k :: rest := by
  induction fuel with
  | zero =>
    intro n ds
    refine ⟨n % 10, Nat.mod_lt _ (by decide), ?_⟩
    simp only [Nat.toDigitsCore]
    split <;> exact ⟨_, rfl⟩
  | succ f ih =>
    intro n ds
    rw [Nat.toDigitsCore]
    split
    · exact ⟨n % 10, Nat.mod_lt _ (by decide), _, rfl⟩
    · exact ih _ _

/-- The decimal rendering is not empty and starts with neither `F` nor `B`. -/
theorem Itoa_head (n : Int) :
    ∃ c rest, (Itoa n).data = c :: rest ∧ c ≠ 'F' ∧ c ≠ 'B' := by
  obtain ⟨k, hk, rest, h⟩ := toDigitsCore_head n.natAbs n.natAbs []
  unfold Itoa
  split
  · exact ⟨'-', _, rfl, by decide, by decide⟩
  · refine ⟨Nat.digitChar k, rest, ?_, digitChar_ne_letter k hk⟩
    simp only [Nat.toDigits, List.asString]
    exact h

/-- The decimal rendering of an integer is none of the three labels. -/
theorem Itoa_ne_label (n : Int) :
    Itoa n ≠ "FizzBuzz" ∧ Itoa n ≠ "Fizz" ∧ Itoa n ≠ "Buzz" := by
  obtain ⟨c, rest, h, hF, hB⟩ := Itoa_head n
  refine ⟨?_, ?_, ?_⟩ <;> intro e <;> rw [e] at h <;> injection h with h1 _
  · exact hF h1.symm
  · exact hF h1.symm
  · exact hB h1.symm

/-- Both remainders vanish exactly for the multiples of 15. -/
theorem tmod_three_five (n : Int) :
    (Int.tmod n 3 = 0 ∧ Int.tmod n 5 = 0) ↔ (15 : Int) ∣ n := by
  constructor
  · rintro ⟨h3, h5⟩
    have d3 : (3 : Int) ∣ n := Int.dvd_of_tmod_eq_zero h3
    have d5 : (5 : Int) ∣ n := Int.dvd_of_tmod_eq_zero h5
    omega
  · intro h
    exact ⟨Int.tmod_eq_zero_of_dvd (by omega), Int.tmod_eq_zero_of_dvd (by omega)⟩

/-- C1: for every integer `n`, `SingleFizzBuzz n` is "FizzBuzz" exactly when 15
divides `n`, "Fizz" exactly when 3 divides `n` and 15 does not, "Buzz" exactly
when 5 divides `n` and 15 does not, and otherwise (neither 3 nor 5 divides `n`)
it is the decimal rendering `Itoa n`. -/
theorem SingleFizzBuzz_spec (n : Int) :
    (SingleFizzBuzz n = "FizzBuzz" ↔ (15 : Int) ∣ n) ∧
    (SingleFizzBuzz n = "Fizz" ↔ ((3 : Int) ∣ n ∧ ¬ (15 : Int) ∣ n)) ∧
    (SingleFizzBuzz n = "Buzz" ↔ ((5 : Int) ∣ n ∧ ¬ (15 : Int) ∣ n)) ∧
    ((3 : Int) ∣ n ∨ (5 : Int) ∣ n ∨ SingleFizzBuzz n = Itoa n) := by
  obtain ⟨hFB, hF, hB⟩ := Itoa_ne_label n
  have e3 : Int.tmod n 3 = 0 ↔ (3 : Int) ∣ n :=
    ⟨Int.dvd_of_tmod_eq_zero, Int.tmod_eq_zero_of_dvd⟩
  have e5 : Int.tmod n 5 = 0 ↔ (5 : Int) ∣ n :=
    ⟨Int.dvd_of_tmod_eq_zero, Int.tmod_eq_zero_of_dvd⟩
  have e15 := tmod_three_five n
  unfold SingleFizzBuzz
  by_cases h3 : (3 : Int) ∣ n <;> by_cases h5 : (5 : Int) ∣ n
  · have h15 : (15 : Int) ∣ n := by omega
    simp [e3.2 h3, e5.2 h5, h3, h5, h15]
  · have h15 : ¬ (15 : Int) ∣ n := by omega
    have n5 : ¬ Int.tmod n 5 = 0 := fun h => h5 (e5.1 h)
    simp [e3.2 h3, n5, h3, h5, h15]
  · have h15 : ¬ (15 : Int) ∣ n := by omega
    have n3 : ¬ Int.tmod n 3 = 0 := fun h => h3 (e3.1 h)
    simp [e5.2 h5, n3, h3, h5, h15]
  · have h15 : ¬ (15 : Int) ∣ n := by omega
    have n3 : ¬ Int.tmod n 3 = 0 := fun h => h3 (e3.1 h)
    have n5 : ¬ Int.tmod n 5 = 0 := fun h => h5 (e5.1 h)
    simp [n3, n5, h3, h5, h15, hFB, hF, hB]

/-! ## Machine arithmetic and parsing -/

/-- A machine result is at most the largest integer. -/
theorem wrap_le_maxInt (x : Int) : wrap x ≤ maxInt := by
  unfold wrap maxInt; omega

/-- A machine result is at least the smallest integer. -/
theorem minInt_le_wrap (x : Int) : minInt ≤ wrap x := by
  unfold wrap minInt; omega

/-- A result inside the 64-bit range is not changed. -/
theorem wrap_of_range (x : Int) (h1 : minInt ≤ x) (h2 : x ≤ maxInt) : wrap x = x := by
  unfold wrap; unfold minInt at h1; unfold maxInt at h2; omega

/-- A result between 0 and 100 is not changed. -/
theorem wrap_small (x : Int) (h0 : 0 ≤ x) (h1 : x ≤ 100) : wrap x = x := by
  unfold wrap; omega

/-- A value `strconv.Atoi` returns lies in the 64-bit range. -/
theorem Atoi_range (s : String) (v : Int) (h : Atoi s = some v) : minInt ≤ v ∧ v ≤ maxInt := by
  unfold Atoi at h
  dsimp only at h
  split_ifs at h with h1 h2 h3 h4 h5
  all_goals (cases h; assumption)

/-- The largest integer parses. -/
theorem Atoi_maxInt : Atoi "9223372036854775807" = some maxInt := by decide

/-- The smallest integer parses. -/
theorem Atoi_minInt : Atoi "-9223372036854775808" = some minInt := by decide

/-- The bounds check in machine arithmetic, for `from <= to` in the 64-bit
range: it rejects exactly the true differences above 100 that still fit the
range, and lets every true difference above the largest integer pass. -/
theorem bounds_check_iff (fromV toV : Int) (hf : minInt ≤ fromV) (ht : toV ≤ maxInt)
    (hle : fromV ≤ toV) :
    wrap (toV - fromV) > 100 ↔ (100 < toV - fromV ∧ toV - fromV ≤ maxInt) := by
  unfold wrap
  unfold minInt at hf
  unfold maxInt at ht ⊢
  omega

/-- Sample values of the decimal rendering, the extremes of the range included. -/
theorem Itoa_examples :
    Itoa 7 = "7" ∧ Itoa (-7) = "-7" ∧ Itoa 1024 = "1024" ∧
    Itoa maxInt = "9223372036854775807" ∧ Itoa minInt = "-9223372036854775808" := by
  decide

/-- A decimal digit character passes `isDigit`, has the digit as its value, and
is not a sign. -/
theorem digitChar_props (k : Nat) (hk : k < 10) :
    isDigit (Nat.digitChar k) = true ∧ (Nat.digitChar k).toNat - 48 = k ∧
    Nat.digitChar k ≠ '-' ∧ Nat.digitChar k ≠ '+' := by
  interval_cases k <;> decide

/-- Reading the digit list of `n` continues a reading in progress as the number
`n` does. -/
theorem foldl_toDigitsCore (fuel : Nat) : ∀ (n : Nat) (acc : List Char), n < fuel →
    (Nat.toDigitsCore 10 fuel n acc).foldl (fun a c => 10 * a + (c.toNat - 48)) 0
      = acc.foldl (fun a c => 10 * a + (c.toNat - 48)) n := by
  induction fuel with
  | zero => intro n acc h; omega
  | succ f ih =>
    intro n acc h
    have hd := (digitChar_props (n % 10) (Nat.mod_lt _ (by decide))).2.1
    rw [Nat.toDigitsCore]
    split
    · rename_i h0
      simp only [List.foldl_cons, hd]
      congr 1
      omega
    · rename_i h0
      rw [ih (n / 10) _ (by omega)]
      simp only [List.foldl_cons, hd]
      congr 1
      omega

/-- The digit list of a number consists of decimal digits. -/
theorem all_toDigitsCore (fuel : Nat) : ∀ (n : Nat) (acc : List Char),
    acc.all isDigit = true → (Nat.toDigitsCore 10 fuel n acc).all isDigit = true := by
  induction fuel with
  | zero => intro n acc h; simpa [Nat.toDigitsCore] using h
  | succ f ih =>
    intro n acc h
    have hd := (digitChar_props (n % 10) (Nat.mod_lt _ (by decide))).1
    have hacc : (Nat.digitChar (n % 10) :: acc).all isDigit = true := by
      simp only [List.all_cons, hd, h, Bool.and_self]
    rw [Nat.toDigitsCore]
    split
    · exact hacc
    · exact ih _ _ hacc

/-- Parsing undoes rendering: `strconv.Atoi` returns `n` on `strconv.Itoa n`
for every `n` of the 64-bit range. -/
theorem Atoi_Itoa (n : Int) (h1 : minInt ≤ n) (h2 : n ≤ maxInt) : Atoi (Itoa n) = some n := by
  obtain ⟨k, hk, rest, hhead⟩ := toDigitsCore_head n.natAbs n.natAbs []
  have hparse : parseDigits (Nat.toDigits 10 n.natAbs) = n.natAbs := by
    have := foldl_toDigitsCore (n.natAbs + 1) n.natAbs [] (by omega)
    simpa [parseDigits, Nat.toDigits] using this
  have hall : (Nat.toDigits 10 n.natAbs).all isDigit = true :=
    all_toDigitsCore (n.natAbs + 1) n.natAbs [] rfl
  have hne : Nat.toDigits 10 n.natAbs ≠ [] := by
    simp only [Nat.toDigits]; rw [hhead]; exact List.cons_ne_nil _ _
  obtain ⟨_, _, hm, hp⟩ := digitChar_props k hk
  by_cases hneg : n < 0
  · have hdata : (Itoa n).data = '-' :: Nat.toDigits 10 n.natAbs := by
      simp [Itoa, hneg, List.asString]
    unfold Atoi
    simp only [hdata, List.head?_cons, List.tail_cons, true_or, if_true, decide_True]
    have hv : -((parseDigits (Nat.toDigits 10 n.natAbs) : Nat) : Int) = n := by
      rw [hparse]; omega
    simp [hne, hall, hv, h1, h2]
  · have hdata : (Itoa n).data = Nat.toDigits 10 n.natAbs := by
      simp [Itoa, hneg, List.asString]
    have hh : (Nat.toDigits 10 n.natAbs).head? = some (Nat.digitChar k) := by
      simp only [Nat.toDigits]; rw [hhead]; rfl
    have hv : ((parseDigits (Nat.toDigits 10 n.natAbs) : Nat) : Int) = n := by
      rw [hparse]; omega
    unfold Atoi
    simp only [hdata, hh, Option.some.injEq, hm, hp, or_self, if_false, decide_False]
    simp [hne, hall, hv, h1, h2]

/-- The round trip at the smallest integer. -/
theorem Atoi_Itoa_witness : Atoi (Itoa (-9223372036854775808)) = some (-9223372036854775808) :=
  Atoi_Itoa (-9223372036854775808) (by decide) (by decide)

/-! ## Schedules and steps -/

/-- The empty schedule changes nothing. -/
theorem run_nil (m : Machine) : m.run [] = m := rfl

/-- A schedule is followed step by step. -/
theorem run_cons (m : Machine) (c : Choice) (cs : List Choice) :
    m.run (c :: cs) = (m.step c).run cs := rfl

/-- Following a schedule and then another is following their concatenation. -/
theorem run_append (m : Machine) (s1 s2 : List Choice) :
    m.run (s1 ++ s2) = (m.run s1).run s2 := by
  simp [Machine.run, List.foldl_append]

/-- A property kept by every step holds along every schedule. -/
theorem run_induction (P : Machine → Prop) (hstep : ∀ m c, P m → P (m.step c))
    (sched : List Choice) : ∀ m, P m → P (m.run sched) := by
  induction sched with
  | nil => intro m h; exact h
  | cons c cs ih => intro m h; exact ih _ (hstep m c h)

/-- A scheduler step either leaves the state as it is (nothing can run, or the
chosen goroutine is blocked or absent) or is one of the effective steps, taken
in a state that has neither crashed nor returned. -/
theorem step_sound (m : Machine) (c : Choice) :
    m.step c = m ∨ (m.crashed = false ∧ m.pc ≠ Pc.returned ∧ Step m (m.step c)) := by
  unfold Machine.step
  split
  · exact Or.inl rfl
  · rename_i hn
    have hc : m.crashed = false := by
      cases h : m.crashed
      · rfl
      · exact absurd (Or.inl h) hn
    have hr : m.pc ≠ Pc.returned := fun h => hn (Or.inr h)
    cases c with
    | main =>
      simp only [Machine.stepMain]
      split
      · rename_i i hi
        split
        · exact Or.inr ⟨hc, hr, Step.spawn i hi ‹_›⟩
        · exact Or.inr ⟨hc, hr, Step.spawnExit i hi ‹_›⟩
      · rename_i i hi
        split
        · split
          · exact Or.inr ⟨hc, hr, Step.recv i hi ‹_› ‹_›⟩
          · exact Or.inl rfl
        · exact Or.inr ⟨hc, hr, Step.waitExit i hi ‹_›⟩
      · rename_i hi
        exact Or.inr ⟨hc, hr, Step.join hi⟩
      · exact Or.inl rfl
    | task k =>
      simp only [Machine.stepTask]
      split
      · exact Or.inl rfl
      · rename_i t ht
        split
        · split
          · exact Or.inr ⟨hc, hr, Step.send k t ht ‹_› ‹_›⟩
          · exact Or.inl rfl
        · rename_i hw
          have hw2 : t.wrote = false := by simpa using hw
          split
          · exact Or.inr ⟨hc, hr, Step.write k t ht hw2 ‹_›⟩
          · exact Or.inr ⟨hc, hr, Step.crash k t ht hw2 ‹_›⟩

/-- A property kept by every effective step holds along every schedule. -/
theorem run_invariant (P : Machine → Prop) (hstep : ∀ m m2, P m → m.crashed = false →
    m.pc ≠ Pc.returned → Step m m2 → P m2)
    (sched : List Choice) (m : Machine) (h : P m) : P (m.run sched) := by
  refine run_induction P ?_ sched m h
  intro m c hm
  rcases step_sound m c with e | ⟨hc, hr, hs⟩
  · rw [e]; exact hm
  · exact hstep m _ hm hc hr hs

/-- While the process runs, choosing the handler runs the handler. -/
theorem step_main_eq (m : Machine) (hcr : m.crashed = false) (hr : m.pc ≠ Pc.returned) :
    m.step Choice.main = m.stepMain := by
  simp [Machine.step, hcr, hr]

/-- While the process runs, choosing a goroutine runs that goroutine. -/
theorem step_task_eq (m : Machine) (hcr : m.crashed = false) (hr : m.pc ≠ Pc.returned)
    (k : Nat) : m.step (Choice.task k) = m.stepTask k := by
  simp [Machine.step, hcr, hr]

/-! ## The branches of the handler -/

/-- The branch of the method check. -/
theorem FizzBuzzHandler_other_method (sched : List Choice) (r : Request) (h : r.Method ≠ "GET") :
    FizzBuzzHandler sched r =
      { calls := httpError "Method Not Allowed" 405, ending := Ending.returned,
        parsed := false, started := 0 } := by
  unfold FizzBuzzHandler
  simp [h]

/-- The handler once both parameters have parsed: the bounds check, the
allocation, and the goroutines. -/
theorem FizzBuzzHandler_parsed (sched : List Choice) (r : Request) (fromV toV : Int)
    (hm : r.Method = "GET") (hf : Atoi (r.queryGet "from") = some fromV)
    (ht : Atoi (r.queryGet "to") = some toV) :
    FizzBuzzHandler sched r =
      if fromV > toV ∨ wrap (toV - fromV) > 100 then
        { calls := httpError "invalid 'from' or 'to' parameters" 400,
          ending := Ending.returned, parsed := true, started := 0 }
      else if wrap (wrap (toV - fromV) + 1) < 0 then
        { calls := [], ending := Ending.panicked, parsed := true, started := 0 }
      else ((Machine.init fromV toV (wrap (wrap (toV - fromV) + 1)).toNat).run sched).outcome := by
  unfold FizzBuzzHandler
  simp only [hm, hf, ht]
  simp

/-- The branch of a parameter that does not parse. -/
theorem FizzBuzzHandler_unparsed (sched : List Choice) (r : Request)
    (hm : r.Method = "GET")
    (h : Atoi (r.queryGet "from") = none ∨ Atoi (r.queryGet "to") = none) :
    FizzBuzzHandler sched r =
      { calls := httpError "invalid 'from' or 'to' parameters" 400,
        ending := Ending.returned, parsed := true, started := 0 } := by
  unfold FizzBuzzHandler
  rcases h with h | h
  · simp [hm, h]
  · cases hf : Atoi (r.queryGet "from") <;> simp [hm, h]

/-- On a range that passes the bounds check without wrap-around the handler is
what its goroutines do on a slice of `to - from + 1` slots. -/
theorem accepted_unfold (sched : List Choice) (r : Request) (fromV toV : Int)
    (hm : r.Method = "GET") (hf : Atoi (r.queryGet "from") = some fromV)
    (ht : Atoi (r.queryGet "to") = some toV) (h1 : fromV ≤ toV) (h2 : toV - fromV ≤ 100) :
    FizzBuzzHandler sched r =
      ((Machine.init fromV toV (toV - fromV + 1).toNat).run sched).outcome := by
  have w1 : wrap (toV - fromV) = toV - fromV := wrap_small _ (by omega) h2
  have w2 : wrap (toV - fromV + 1) = toV - fromV + 1 := by
    unfold wrap; omega
  rw [FizzBuzzHandler_parsed sched r fromV toV hm hf ht, w1, w2,
    if_neg (by omega), if_neg (by omega)]

/-- A handler that has not returned has made no call on its writer. -/
theorem outcome_not_returned (m : Machine) (h : m.pc ≠ Pc.returned) :
    m.outcome.calls = [] ∧ m.outcome.ending ≠ Ending.returned := by
  unfold Machine.outcome
  by_cases hc : m.crashed = true
  · simp [hc]
  · simp [hc, h]

/-! ## Rejected requests -/

/-- C4 (counterexample): for `GET /range-fizzbuzz?from=5&to=3` the body is not
exactly the message: `http.Error` ends it with a line feed. -/
theorem FizzBuzzHandler_reject_body_not_bare :
    (FizzBuzzHandler [] (rangeRequest "GET" "5" "3")).response.body
      ≠ "invalid 'from' or 'to' parameters" := by
  decide

/-- C4 (amended): for every GET request in which `from` or `to` does not parse
with `strconv.Atoi` (missing, not a decimal integer, or out of the 64-bit range),
or in which both parse and `from > to`, the handler under every schedule returns
after `http.Error` with code 400: the response has status 400 and its body is
the message "invalid 'from' or 'to' parameters" followed by a line feed, the
same for both kinds of failure, and no goroutine is started. -/
theorem FizzBuzzHandler_rejects_invalid (sched : List Choice) (r : Request)
    (hm : r.Method = "GET")
    (h : Atoi (r.queryGet "from") = none ∨ Atoi (r.queryGet "to") = none ∨
      ∃ fromV toV, Atoi (r.queryGet "from") = some fromV ∧
        Atoi (r.queryGet "to") = some toV ∧ fromV > toV) :
    FizzBuzzHandler sched r =
      { calls := httpError "invalid 'from' or 'to' parameters" 400,
        ending := Ending.returned, parsed := true, started := 0 } ∧
    (FizzBuzzHandler sched r).response =
      { status := some 400, body := "invalid 'from' or 'to' parameters\n" } := by
  have key : FizzBuzzHandler sched r =
      { calls := httpError "invalid 'from' or 'to' parameters" 400,
        ending := Ending.returned, parsed := true, started := 0 } := by
    rcases h with h | h | ⟨fromV, toV, hf, ht, hgt⟩
    · exact FizzBuzzHandler_unparsed sched r hm (Or.inl h)
    · exact FizzBuzzHandler_unparsed sched r hm (Or.inr h)
    · rw [FizzBuzzHandler_parsed sched r fromV toV hm hf ht, if_pos (Or.inl hgt)]
  refine ⟨key, ?_⟩
  rw [key]
  decide

/-- C4 (witness): the two examples of the specification, `from=a&to=10` and
`from=5&to=3`, and a request without the parameter `from`. -/
theorem FizzBuzzHandler_rejects_invalid_witness :
    (FizzBuzzHandler [] (rangeRequest "GET" "a" "10")).response =
      { status := some 400, body := "invalid 'from' or 'to' parameters\n" } ∧
    (FizzBuzzHandler [Choice.main] (rangeRequest "GET" "5" "3")).response =
      { status := some 400, body := "invalid 'from' or 'to' parameters\n" } ∧
    (FizzBuzzHandler [] { Method := "GET", Query := [("to", "10")] }).response =
      { status := some 400, body := "invalid 'from' or 'to' parameters\n" } :=
  ⟨(FizzBuzzHandler_rejects_invalid [] (rangeRequest "GET" "a" "10") rfl
      (Or.inl (by decide))).2,
   (FizzBuzzHandler_rejects_invalid [Choice.main] (rangeRequest "GET" "5" "3") rfl
      (Or.inr (Or.inr ⟨5, 3, by decide, by decide, by decide⟩))).2,
   (FizzBuzzHandler_rejects_invalid [] { Method := "GET", Query := [("to", "10")] } rfl
      (Or.inl (by decide))).2⟩

/-- C5 (counterexample): for `POST /range-fizzbuzz?from=1&to=5` the body is not
the bare text "Method Not Allowed": `http.Error` ends it with a line feed. -/
theorem FizzBuzzHandler_method_body_not_bare :
    (FizzBuzzHandler [] (rangeRequest "POST" "1" "5")).response.body
      ≠ "Method Not Allowed" := by
  decide

/-- C5 (amended): for every request whose method is not GET, whatever its
parameters and whatever the schedule, the handler returns after `http.Error`
with code 405: the response has status 405 and its body is "Method Not Allowed"
followed by a line feed; the parameters are not parsed and no goroutine is
started. -/
theorem FizzBuzzHandler_rejects_method (sched : List Choice) (r : Request)
    (hm : r.Method ≠ "GET") :
    (FizzBuzzHandler sched r).response =
      { status := some 405, body := "Method Not Allowed\n" } ∧
    (FizzBuzzHandler sched r).ending = Ending.returned ∧
    (FizzBuzzHandler sched r).parsed = false ∧
    (FizzBuzzHandler sched r).started = 0 := by
  rw [FizzBuzzHandler_other_method sched r hm]
  decide

/-- C5 (witness): the example of the specification, `POST /range-fizzbuzz?from=1&to=5`. -/
theorem FizzBuzzHandler_rejects_method_witness :
    (FizzBuzzHandler [Choice.main, Choice.task 0] (rangeRequest "POST" "1" "5")).response =
      { status := some 405, body := "Method Not Allowed\n" } :=
  (FizzBuzzHandler_rejects_method [Choice.main, Choice.task 0]
    (rangeRequest "POST" "1" "5") (by decide)).1

/-- The bounds check where the subtraction does not wrap: a GET request whose
parameters parse with a true difference above 100 that still fits the integer
range is answered with status 400, and no goroutine is started. -/
theorem FizzBuzzHandler_rejects_wide (sched : List Choice) (r : Request) (fromV toV : Int)
    (hm : r.Method = "GET") (hf : Atoi (r.queryGet "from") = some fromV)
    (ht : Atoi (r.queryGet "to") = some toV) (h1 : toV - fromV > 100)
    (h2 : toV - fromV ≤ maxInt) :
    (FizzBuzzHandler sched r).response =
      { status := some 400, body := "invalid 'from' or 'to' parameters\n" } ∧
    (FizzBuzzHandler sched r).started = 0 := by
  have w1 : wrap (toV - fromV) = toV - fromV := by
    unfold wrap; unfold maxInt at h2; omega
  rw [FizzBuzzHandler_parsed sched r fromV toV hm hf ht, w1, if_pos (Or.inr h1)]
  exact ⟨by decide, rfl⟩

/-! ## The invariant of an accepted range below the largest integer -/

/-- Storing at a position the element already there leaves a list unchanged. -/
theorem set_self_of_getElem {α : Type} (l : List α) (k : Nat) (a : α) (h : l[k]? = some a) :
    l.set k a = l := by
  apply List.ext_getElem?
  intro j
  rw [List.getElem?_set]
  obtain ⟨hk, _⟩ := List.getElem?_eq_some.1 h
  by_cases e : k = j
  · subst e; simp [hk, h]
  · simp [e]

/-- Marking a goroutine as having written does not change the arguments of
the live goroutines. -/
theorem map_i_set (l : List Task) (k : Nat) (t : Task) (h : l[k]? = some t) :
    (l.set k { t with wrote := true }).map Task.i = l.map Task.i := by
  rw [List.map_set]
  apply set_self_of_getElem
  rw [List.getElem?_map, h]
  rfl

/-- A goroutine other than the one that ends stays live. -/
theorem mem_eraseIdx_of_ne (l : List Task) (k : Nat) (t x : Task) (h : l[k]? = some t)
    (hx : x ∈ l) (hne : x.i ≠ t.i) : x ∈ l.eraseIdx k := by
  obtain ⟨j, hj⟩ := List.mem_iff_getElem?.1 hx
  refine List.mem_eraseIdx_iff_getElem?.2 ⟨j, ?_, hj⟩
  intro e
  subst e
  rw [h] at hj
  cases hj
  exact hne rfl

/-- The invariant holds when the spawn loop is entered. -/
theorem inv_init (F T : Int) (hFT : F ≤ T) :
    Inv F T (Machine.init F T (T - F + 1).toNat) where
  hF := rfl
  hT := rfl
  hcr := rfl
  hcap := by simp only [Machine.init]; omega
  hlen := by simp only [Machine.init, List.length_replicate]; omega
  hspawn := by
    intro i h
    simp only [Machine.init] at h
    cases h
    exact ⟨le_refl _, by omega, rfl⟩
  hwait := by intro i h; simp [Machine.init] at h
  hjoin := by intro h; simp [Machine.init] at h
  hst := by simp [Machine.init, Pc.bound]
  hcount := rfl
  htask := by intro t ht; simp [Machine.init] at ht
  htnd := by simp [Machine.init]
  hwr := by intro w hw; simp [Machine.init] at hw
  hwnd := by simp [Machine.init]
  hunw := by intro t ht; simp [Machine.init] at ht
  hwrt := by intro t ht; simp [Machine.init] at ht
  hcov := by
    intro i h1 h2
    simp only [Machine.init, Pc.bound] at h2
    omega
  hres := by
    intro k hk
    simp only [Machine.init, List.map_nil, List.not_mem_nil, if_false]
    rw [List.getElem?_replicate, if_pos (by omega)]

/-- No goroutine is started for an integer above `to`. -/
theorem Inv.bound_le {F T : Int} {m : Machine} (h : Inv F T m) : m.pc.bound T ≤ T + 1 := by
  cases hpc : m.pc with
  | spawn i => exact (h.hspawn i hpc).2.1
  | wait i => exact le_refl _
  | join => exact le_refl _
  | returned => exact le_refl _

/-- An iteration of the spawn loop keeps the invariant. -/
theorem inv_spawn (F T : Int) (hTmax : T < maxInt) (hFmin : minInt ≤ F) (m : Machine)
    (h : Inv F T m) (i : Int) (hpc : m.pc = Pc.spawn i) (hle : i ≤ m.toV) :
    Inv F T { m with tasks := m.tasks ++ [{ i := i, wrote := false }],
                     pc := Pc.spawn (wrap (i + 1)), started := m.started + 1 } := by
  obtain ⟨h1, h2, h3⟩ := h.hspawn i hpc
  have hiT : i ≤ T := h.hT ▸ hle
  have hw : wrap (i + 1) = i + 1 := by
    apply wrap_of_range <;> omega
  have hb : m.pc.bound T = i := by rw [hpc]; rfl
  have hst := h.hst
  have hcount := h.hcount
  rw [hb] at hst
  rw [hw]
  exact {
    hF := h.hF
    hT := h.hT
    hcr := h.hcr
    hcap := h.hcap
    hlen := h.hlen
    hspawn := by
      intro j hj
      simp only [Pc.spawn.injEq] at hj
      subst hj
      exact ⟨by omega, by omega, h3⟩
    hwait := by intro j hj; simp at hj
    hjoin := by intro hj; simp at hj
    hst := by simp only [Pc.bound]; omega
    hcount := by simp only [List.length_append, List.length_singleton]; omega
    htask := by
      intro t ht
      simp only [List.mem_append, List.mem_singleton] at ht
      simp only [Pc.bound]
      rcases ht with ht | ht
      · have := h.htask t ht
        rw [hb] at this
        omega
      · subst ht
        show F ≤ i ∧ i < i + 1
        exact ⟨h1, by omega⟩
    htnd := by
      simp only [List.map_append, List.map_cons, List.map_nil]
      rw [List.nodup_append]
      refine ⟨h.htnd, List.nodup_singleton _, ?_⟩
      intro x hx hx2
      simp only [List.mem_singleton] at hx2
      obtain ⟨t, ht, rfl⟩ := List.mem_map.1 hx
      have := h.htask t ht
      rw [hb] at this
      omega
    hwr := by
      intro w hw
      have := h.hwr w hw
      rw [hb] at this
      simp only [Pc.bound]
      exact ⟨this.1, by omega, this.2.2⟩
    hwnd := h.hwnd
    hunw := by
      intro t ht hf
      simp only [List.mem_append, List.mem_singleton] at ht
      rcases ht with ht | ht
      · exact h.hunw t ht hf
      · subst ht
        intro hmem
        obtain ⟨w, hw, hwi⟩ := List.mem_map.1 hmem
        have := h.hwr w hw
        rw [hb] at this
        simp only at hwi
        omega
    hwrt := by
      intro t ht hf
      simp only [List.mem_append, List.mem_singleton] at ht
      rcases ht with ht | ht
      · exact h.hwrt t ht hf
      · subst ht
        simp at hf
    hcov := by
      intro j hj1 hj2
      simp only [Pc.bound] at hj2
      simp only [List.map_append, List.map_cons, List.map_nil, List.mem_append,
        List.mem_singleton]
      by_cases e : j = i
      · exact Or.inl (Or.inr e)
      · have := h.hcov j hj1 (by rw [hb]; omega)
        rcases this with c | c
        · exact Or.inl (Or.inl c)
        · exact Or.inr c
    hres := h.hres }

/-- Leaving the spawn loop keeps the invariant. -/
theorem inv_spawnExit (F T : Int) (hFT : F ≤ T) (m : Machine)
    (h : Inv F T m) (i : Int) (hpc : m.pc = Pc.spawn i) (hgt : ¬ i ≤ m.toV) :
    Inv F T { m with pc := Pc.wait m.fromV } := by
  obtain ⟨h1, h2, h3⟩ := h.hspawn i hpc
  have hiT : ¬ i ≤ T := h.hT ▸ hgt
  have hi : i = T + 1 := by omega
  have hb : m.pc.bound T = T + 1 := by rw [hpc]; simp only [Pc.bound]; exact hi
  have hst := h.hst
  rw [hb] at hst
  have hF := h.hF
  exact {
    hF := h.hF
    hT := h.hT
    hcr := h.hcr
    hcap := h.hcap
    hlen := h.hlen
    hspawn := by intro j hj; simp at hj
    hwait := by
      intro j hj
      simp only [Pc.wait.injEq] at hj
      subst hj
      exact ⟨by omega, by omega, by simp [h3, hF]⟩
    hjoin := by intro hj; simp at hj
    hst := by simp only [Pc.bound]; exact hst
    hcount := h.hcount
    htask := by intro t ht; have := h.htask t ht; rw [hb] at this; exact this
    htnd := h.htnd
    hwr := by intro w hw; have := h.hwr w hw; rw [hb] at this; exact this
    hwnd := h.hwnd
    hunw := h.hunw
    hwrt := h.hwrt
    hcov := by intro j hj1 hj2; exact h.hcov j hj1 (by rw [hb]; exact hj2)
    hres := h.hres }

/-- An iteration of the wait loop keeps the invariant. -/
theorem inv_recv (F T : Int) (hTmax : T < maxInt) (hFmin : minInt ≤ F) (m : Machine)
    (h : Inv F T m) (i : Int) (hpc : m.pc = Pc.wait i) (hle : i ≤ m.toV) (hd : 0 < m.done) :
    Inv F T { m with done := m.done - 1, pc := Pc.wait (wrap (i + 1)),
                     received := m.received + 1 } := by
  obtain ⟨h1, h2, h3⟩ := h.hwait i hpc
  have hiT : i ≤ T := h.hT ▸ hle
  have hw : wrap (i + 1) = i + 1 := by
    apply wrap_of_range <;> omega
  have hb : m.pc.bound T = T + 1 := by rw [hpc]; rfl
  have hst := h.hst
  have hcount := h.hcount
  rw [hb] at hst
  rw [hw]
  exact {
    hF := h.hF
    hT := h.hT
    hcr := h.hcr
    hcap := h.hcap
    hlen := h.hlen
    hspawn := by intro j hj; simp at hj
    hwait := by
      intro j hj
      simp only [Pc.wait.injEq] at hj
      subst hj
      refine ⟨by omega, by omega, ?_⟩
      show ((m.received + 1 : Nat) : Int) = i + 1 - F
      omega
    hjoin := by intro hj; simp at hj
    hst := by simp only [Pc.bound]; exact hst
    hcount := by show m.done - 1 + (m.received + 1) + m.tasks.length = m.started; omega
    htask := by intro t ht; have := h.htask t ht; rw [hb] at this; exact this
    htnd := h.htnd
    hwr := by intro w hw; have := h.hwr w hw; rw [hb] at this; exact this
    hwnd := h.hwnd
    hunw := h.hunw
    hwrt := h.hwrt
    hcov := by intro j hj1 hj2; exact h.hcov j hj1 (by rw [hb]; exact hj2)
    hres := h.hres }

/-- Leaving the wait loop keeps the invariant. -/
theorem inv_waitExit (F T : Int) (m : Machine)
    (h : Inv F T m) (i : Int) (hpc : m.pc = Pc.wait i) (hgt : ¬ i ≤ m.toV) :
    Inv F T { m with pc := Pc.join } := by
  obtain ⟨h1, h2, h3⟩ := h.hwait i hpc
  have hiT : ¬ i ≤ T := h.hT ▸ hgt
  have hb : m.pc.bound T = T + 1 := by rw [hpc]; rfl
  have hst := h.hst
  rw [hb] at hst
  exact {
    hF := h.hF
    hT := h.hT
    hcr := h.hcr
    hcap := h.hcap
    hlen := h.hlen
    hspawn := by intro j hj; simp at hj
    hwait := by intro j hj; simp at hj
    hjoin := by intro _; show (m.received : Int) = T + 1 - F; omega
    hst := by simp only [Pc.bound]; exact hst
    hcount := h.hcount
    htask := by intro t ht; have := h.htask t ht; rw [hb] at this; exact this
    htnd := h.htnd
    hwr := by intro w hw; have := h.hwr w hw; rw [hb] at this; exact this
    hwnd := h.hwnd
    hunw := h.hunw
    hwrt := h.hwrt
    hcov := by intro j hj1 hj2; exact h.hcov j hj1 (by rw [hb]; exact hj2)
    hres := h.hres }

/-- The join and the return keep the invariant. -/
theorem inv_join (F T : Int) (m : Machine)
    (h : Inv F T m) (hpc : m.pc = Pc.join) :
    Inv F T { m with pc := Pc.returned } := by
  have h3 := h.hjoin (Or.inl hpc)
  have hb : m.pc.bound T = T + 1 := by rw [hpc]; rfl
  have hst := h.hst
  rw [hb] at hst
  exact {
    hF := h.hF
    hT := h.hT
    hcr := h.hcr
    hcap := h.hcap
    hlen := h.hlen
    hspawn := by intro j hj; simp at hj
    hwait := by intro j hj; simp at hj
    hjoin := by intro _; exact h3
    hst := by simp only [Pc.bound]; exact hst
    hcount := h.hcount
    htask := by intro t ht; have := h.htask t ht; rw [hb] at this; exact this
    htnd := h.htnd
    hwr := by intro w hw; have := h.hwr w hw; rw [hb] at this; exact this
    hwnd := h.hwnd
    hunw := h.hunw
    hwrt := h.hwrt
    hcov := by intro j hj1 hj2; exact h.hcov j hj1 (by rw [hb]; exact hj2)
    hres := h.hres }

/-- A send on `done` keeps the invariant. -/
theorem inv_send (F T : Int) (m : Machine)
    (h : Inv F T m) (k : Nat) (t : Task) (hk : m.tasks[k]? = some t) (hw : t.wrote = true) :
    Inv F T { m with done := m.done + 1, tasks := m.tasks.eraseIdx k } := by
  have hmem : t ∈ m.tasks := List.getElem?_mem hk
  have hklt : k < m.tasks.length := (List.getElem?_eq_some.1 hk).1
  have hcount := h.hcount
  exact {
    hF := h.hF
    hT := h.hT
    hcr := h.hcr
    hcap := h.hcap
    hlen := h.hlen
    hspawn := h.hspawn
    hwait := h.hwait
    hjoin := h.hjoin
    hst := h.hst
    hcount := by
      show m.done + 1 + m.received + (m.tasks.eraseIdx k).length = m.started
      rw [List.length_eraseIdx, if_pos hklt]
      omega
    htask := fun x hx => h.htask x (List.mem_of_mem_eraseIdx hx)
    htnd := List.Nodup.sublist ((List.eraseIdx_sublist m.tasks k).map Task.i) h.htnd
    hwr := h.hwr
    hwnd := h.hwnd
    hunw := fun x hx => h.hunw x (List.mem_of_mem_eraseIdx hx)
    hwrt := fun x hx => h.hwrt x (List.mem_of_mem_eraseIdx hx)
    hcov := by
      intro j hj1 hj2
      rcases h.hcov j hj1 hj2 with c | c
      · by_cases e : j = t.i
        · exact Or.inr (e ▸ h.hwrt t hmem hw)
        · obtain ⟨x, hx, hxi⟩ := List.mem_map.1 c
          refine Or.inl (List.mem_map.2 ⟨x, ?_, hxi⟩)
          exact mem_eraseIdx_of_ne m.tasks k t x hk hx (by rw [hxi]; exact e)
      · exact Or.inr c
    hres := h.hres }

/-- An assignment to a result slot keeps the invariant. -/
theorem inv_write (F T : Int) (hd : T - F ≤ 100)
    (m : Machine) (h : Inv F T m) (k : Nat) (t : Task) (hk : m.tasks[k]? = some t)
    (hw : t.wrote = false) :
    Inv F T { m with results := m.results.set (wrap (t.i - m.fromV)).toNat (SingleFizzBuzz t.i),
                     tasks := m.tasks.set k { t with wrote := true },
                     writes := m.writes ++ [(t.i, (wrap (t.i - m.fromV)).toNat)] } := by
  have hmem : t ∈ m.tasks := List.getElem?_mem hk
  have hklt : k < m.tasks.length := (List.getElem?_eq_some.1 hk).1
  have hti := h.htask t hmem
  have hble := h.bound_le
  have hwrap : wrap (t.i - m.fromV) = t.i - F := by
    rw [h.hF]
    exact wrap_small _ (by omega) (by omega)
  have hnew : ({ t with wrote := true } : Task) ∈ m.tasks.set k { t with wrote := true } := by
    apply List.getElem?_mem (n := k)
    rw [List.getElem?_set, if_pos rfl, if_pos hklt]
  have hmapi := map_i_set m.tasks k t hk
  have hlen := h.hlen
  rw [hwrap]
  exact {
    hF := h.hF
    hT := h.hT
    hcr := h.hcr
    hcap := h.hcap
    hlen := by simp only [List.length_set]; exact h.hlen
    hspawn := h.hspawn
    hwait := h.hwait
    hjoin := h.hjoin
    hst := h.hst
    hcount := by simp only [List.length_set]; exact h.hcount
    htask := by
      intro x hx
      rcases List.mem_or_eq_of_mem_set hx with hx | hx
      · exact h.htask x hx
      · rw [hx]; exact hti
    htnd := by
      show ((m.tasks.set k { t with wrote := true }).map Task.i).Nodup
      rw [hmapi]; exact h.htnd
    hwr := by
      intro w hw
      simp only [List.mem_append, List.mem_singleton] at hw
      rcases hw with hw | hw
      · exact h.hwr w hw
      · rw [hw]; exact ⟨hti.1, hti.2, rfl⟩
    hwnd := by
      simp only [List.map_append, List.map_cons, List.map_nil]
      rw [List.nodup_append]
      refine ⟨h.hwnd, List.nodup_singleton _, ?_⟩
      intro x hx hx2
      simp only [List.mem_singleton] at hx2
      subst hx2
      exact h.hunw t hmem hw hx
    hunw := by
      intro x hx hxw
      simp only [List.map_append, List.map_cons, List.map_nil, List.mem_append,
        List.mem_singleton]
      have hxt : x.i ≠ t.i := by
        intro e
        have hnd : ((m.tasks.set k { t with wrote := true }).map Task.i).Nodup := by
          rw [hmapi]; exact h.htnd
        have := List.inj_on_of_nodup_map hnd hx hnew e
        rw [this] at hxw
        simp at hxw
      rcases List.mem_or_eq_of_mem_set hx with hx | hx
      · intro hc
        rcases hc with hc | hc
        · exact h.hunw x hx hxw hc
        · exact hxt hc
      · rw [hx] at hxw; simp at hxw
    hwrt := by
      intro x hx hxw
      simp only [List.map_append, List.map_cons, List.map_nil, List.mem_append,
        List.mem_singleton]
      rcases List.mem_or_eq_of_mem_set hx with hx | hx
      · exact Or.inl (h.hwrt x hx hxw)
      · rw [hx]; exact Or.inr rfl
    hcov := by
      intro j hj1 hj2
      show j ∈ (m.tasks.set k { t with wrote := true }).map Task.i ∨ _
      rw [hmapi]
      simp only [List.map_append, List.map_cons, List.map_nil, List.mem_append,
        List.mem_singleton]
      rcases h.hcov j hj1 hj2 with c | c
      · exact Or.inl c
      · exact Or.inr (Or.inl c)
    hres := by
      intro j hj
      simp only [List.map_append, List.map_cons, List.map_nil, List.mem_append,
        List.mem_singleton]
      rw [List.getElem?_set]
      by_cases e : (t.i - F).toNat = j
      · have e2 : F + (j : Int) = t.i := by omega
        rw [if_pos e, if_pos (by omega), if_pos (Or.inr e2), e2]
      · have e2 : F + (j : Int) ≠ t.i := by omega
        rw [if_neg e, h.hres j hj]
        have e3 : (F + (j : Int) ∈ List.map Prod.fst m.writes ∨ F + (j : Int) = t.i) ↔
            F + (j : Int) ∈ List.map Prod.fst m.writes :=
          ⟨fun hc => hc.resolve_right e2, Or.inl⟩
        simp only [e3] }

/-- Every effective step keeps the invariant, and none of them is a crash. -/
theorem inv_step (F T : Int) (hFmin : minInt ≤ F) (hFT : F ≤ T) (hTmax : T < maxInt)
    (hd : T - F ≤ 100) (m m2 : Machine) (h : Inv F T m) (hs : Step m m2) : Inv F T m2 := by
  cases hs with
  | spawn i hpc hle => exact inv_spawn F T hTmax hFmin m h i hpc hle
  | spawnExit i hpc hgt => exact inv_spawnExit F T hFT m h i hpc hgt
  | recv i hpc hle hd => exact inv_recv F T hTmax hFmin m h i hpc hle hd
  | waitExit i hpc hgt => exact inv_waitExit F T m h i hpc hgt
  | join hpc => exact inv_join F T m h hpc
  | write k t hk hw hb => exact inv_write F T hd m h k t hk hw
  | crash k t hk hw hb =>
    exfalso
    apply hb
    have hti := h.htask t (List.getElem?_mem hk)
    have hble := h.bound_le
    have hlen := h.hlen
    have hwrap : wrap (t.i - m.fromV) = t.i - F := by
      rw [h.hF]
      apply wrap_of_range <;> unfold minInt maxInt at * <;> omega
    rw [hwrap]
    omega
  | send k t hk hw hd => exact inv_send F T m h k t hk hw

/-- The invariant holds in every state a schedule reaches. -/
theorem inv_run (F T : Int) (hFmin : minInt ≤ F) (hFT : F ≤ T) (hTmax : T < maxInt)
    (hd : T - F ≤ 100) (sched : List Choice) :
    Inv F T ((Machine.init F T (T - F + 1).toNat).run sched) :=
  run_invariant (Inv F T)
    (fun m m2 h _ _ hs => inv_step F T hFmin hFT hTmax hd m m2 h hs)
    sched _ (inv_init F T hFT)

/-- Every scheduler step keeps the invariant. -/
theorem Inv.step {F T : Int} (hFmin : minInt ≤ F) (hFT : F ≤ T) (hTmax : T < maxInt)
    (hd : T - F ≤ 100) {m : Machine} (h : Inv F T m) (c : Choice) : Inv F T (m.step c) := by
  rcases step_sound m c with e | ⟨_, _, hs⟩
  · rw [e]; exact h
  · exact inv_step F T hFmin hFT hTmax hd m _ h hs

/-- Under the invariant no slot is assigned twice. -/
theorem Inv.slots_nodup {F T : Int} {m : Machine} (h : Inv F T m) :
    (m.writes.map Prod.snd).Nodup := by
  have e : m.writes.map Prod.snd = (m.writes.map Prod.fst).map (fun i => (i - F).toNat) := by
    rw [List.map_map]
    apply List.map_congr_left
    intro w hw
    exact (h.hwr w hw).2.2
  rw [e]
  apply List.Nodup.map_on _ h.hwnd
  intro x hx y hy hxy
  obtain ⟨w, hw, rfl⟩ := List.mem_map.1 hx
  obtain ⟨w2, hw2, rfl⟩ := List.mem_map.1 hy
  have a := (h.hwr w hw).1
  have b := (h.hwr w2 hw2).1
  simp only at hxy
  omega

/-- Under the invariant, once the wait loop is over every goroutine has
finished, the channel is empty, each slot has been assigned exactly once, and
the slots hold the evaluator's results in ascending order. -/
theorem Inv.at_join {F T : Int} (hFT : F ≤ T) {m : Machine} (h : Inv F T m)
    (hpc : m.pc = Pc.join ∨ m.pc = Pc.returned) :
    m.tasks = [] ∧ m.done = 0 ∧ (m.started : Int) = T - F + 1 ∧
    (m.received : Int) = T - F + 1 ∧
    (∀ k : Nat, (k : Int) < T - F + 1 → (m.writes.map Prod.snd).count k = 1) ∧
    m.results = (rangeInts F T).map SingleFizzBuzz := by
  have hrec := h.hjoin hpc
  have hb : m.pc.bound T = T + 1 := by
    rcases hpc with e | e <;> rw [e] <;> rfl
  have hst := h.hst
  rw [hb] at hst
  have hcount := h.hcount
  have hlen0 : m.tasks.length = 0 := by omega
  have htasks : m.tasks = [] := List.length_eq_zero.1 hlen0
  have hall : ∀ k : Nat, (k : Int) < T - F + 1 → F + (k : Int) ∈ m.writes.map Prod.fst := by
    intro k hk
    rcases h.hcov (F + k) (by omega) (by rw [hb]; omega) with c | c
    · rw [htasks] at c; simp at c
    · exact c
  refine ⟨htasks, by omega, by omega, by omega, ?_, ?_⟩
  · intro k hk
    apply List.count_eq_one_of_mem h.slots_nodup
    obtain ⟨w, hw, hwk⟩ := List.mem_map.1 (hall k hk)
    refine List.mem_map.2 ⟨w, hw, ?_⟩
    have := (h.hwr w hw).2.2
    omega
  · apply List.ext_getElem?
    intro k
    by_cases hk : (k : Int) < T - F + 1
    · rw [h.hres k hk, if_pos (hall k hk)]
      simp only [rangeInts, List.map_map, List.getElem?_map]
      rw [List.getElem?_range (by omega)]
      rfl
    · have hlen := h.hlen
      rw [List.getElem?_eq_none (by omega), List.getElem?_eq_none]
      simp only [rangeInts, List.length_map, List.length_range]
      omega

/-- In a state of the invariant from which the handler has not returned, some
goroutine can take a step, and that step brings the handler nearer to its
return. -/
theorem progress (F T : Int) (hTmax : T < maxInt) (hFmin : minInt ≤ F)
    (hd : T - F ≤ 100) (m : Machine) (h : Inv F T m) (hr : m.pc ≠ Pc.returned) :
    ∃ c, (m.step c).measure < m.measure := by
  have hcr := h.hcr
  have hT := h.hT
  have hF := h.hF
  have hst := h.hst
  have hcount := h.hcount
  have hmain := step_main_eq m hcr hr
  have htask := step_task_eq m hcr hr
  cases hpc : m.pc with
  | spawn i =>
    obtain ⟨h1, h2, h3⟩ := h.hspawn i hpc
    refine ⟨Choice.main, ?_⟩
    rw [hmain]
    by_cases hle : i ≤ m.toV
    · have hw : wrap (i + 1) = i + 1 := by
        apply wrap_of_range <;> omega
      simp only [Machine.stepMain, hpc, if_pos hle, Machine.measure, Pc.rem, hw,
        List.map_append, List.sum_append, List.map_cons, List.map_nil,
        List.sum_cons, List.sum_nil, Task.weight, Bool.false_eq_true, if_false]
      omega
    · simp only [Machine.stepMain, hpc, if_neg hle, Machine.measure, Pc.rem]
      omega
  | wait i =>
    obtain ⟨h1, h2, h3⟩ := h.hwait i hpc
    by_cases hle : i ≤ m.toV
    · by_cases hdone : 0 < m.done
      · refine ⟨Choice.main, ?_⟩
        have hw : wrap (i + 1) = i + 1 := by
          apply wrap_of_range <;> omega
        rw [hmain]
        simp only [Machine.stepMain, hpc, if_pos hle, if_pos hdone, Machine.measure, Pc.rem, hw]
        omega
      · refine ⟨Choice.task 0, ?_⟩
        rw [hpc] at hst
        simp only [Pc.bound] at hst
        have hcap := h.hcap
        have hlen := h.hlen
        rw [htask 0]
        cases htasks : m.tasks with
        | nil => rw [htasks] at hcount; simp at hcount; omega
        | cons t rest =>
          have hti := h.htask t (by rw [htasks]; exact List.mem_cons_self _ _)
          rw [hpc] at hti
          simp only [Pc.bound] at hti
          have hwrap : wrap (t.i - m.fromV) = t.i - F := by
            rw [hF]
            exact wrap_small _ (by omega) (by omega)
          cases hwrote : t.wrote with
          | true =>
            have hlt : m.done < m.cap := by omega
            simp only [Machine.stepTask, htasks, List.getElem?_cons_zero, hwrote, if_true, if_pos hlt,
              Machine.measure,
              hpc, Pc.rem, htasks, List.eraseIdx_cons_zero, List.map_cons, List.sum_cons,
              Task.weight]
            omega
          | false =>
            have hb : 0 ≤ wrap (t.i - m.fromV) ∧
                wrap (t.i - m.fromV) < (m.results.length : Int) := by
              rw [hwrap]; omega
            simp only [Machine.stepTask, htasks, List.getElem?_cons_zero, hwrote, Bool.false_eq_true,
              if_false, if_pos hb,
              Machine.measure, hpc, Pc.rem, htasks, List.set_cons_zero, List.map_cons,
              List.sum_cons, Task.weight, if_true]
            omega
    · refine ⟨Choice.main, ?_⟩
      rw [hmain]
      simp only [Machine.stepMain, hpc, if_neg hle, Machine.measure, Pc.rem]
      omega
  | join =>
    refine ⟨Choice.main, ?_⟩
    rw [hmain]
    simp only [Machine.stepMain, hpc, Machine.measure, Pc.rem]
    omega
  | returned => exact absurd hpc hr

/-- From every state of the invariant some continuation of the schedule lets
the handler return. -/
theorem exists_completion (F T : Int) (hFT : F ≤ T) (hTmax : T < maxInt) (hFmin : minInt ≤ F)
    (hd : T - F ≤ 100) (N : Nat) : ∀ m : Machine, Inv F T m → m.measure ≤ N →
    ∃ ext, (m.run ext).pc = Pc.returned := by
  induction N with
  | zero =>
    intro m h hN
    by_cases hr : m.pc = Pc.returned
    · exact ⟨[], hr⟩
    · obtain ⟨c, hc⟩ := progress F T hTmax hFmin hd m h hr
      omega
  | succ N ih =>
    intro m h hN
    by_cases hr : m.pc = Pc.returned
    · exact ⟨[], hr⟩
    · obtain ⟨c, hc⟩ := progress F T hTmax hFmin hd m h hr
      obtain ⟨ext, hext⟩ := ih (m.step c) (h.step hFmin hFT hTmax hd c) (by omega)
      exact ⟨c :: ext, hext⟩

/-! ## Accepted requests below the largest integer -/

/-- The handler on an accepted range whose upper bound is below the largest
integer: under every schedule it neither panics nor crashes; whenever it has
returned, the response is 200 with the evaluator's results for `from`, ..., `to`
joined by single spaces, exactly `to - from + 1` goroutines were started; and
every schedule can be continued so that it returns. -/
theorem FizzBuzzHandler_serves_range (sched : List Choice) (r : Request) (fromV toV : Int)
    (hm : r.Method = "GET") (hf : Atoi (r.queryGet "from") = some fromV)
    (ht : Atoi (r.queryGet "to") = some toV) (h1 : fromV ≤ toV) (h2 : toV - fromV ≤ 100)
    (h3 : toV < maxInt) :
    ((FizzBuzzHandler sched r).ending = Ending.running ∨
      (FizzBuzzHandler sched r).ending = Ending.returned) ∧
    ((FizzBuzzHandler sched r).ending = Ending.returned →
      (FizzBuzzHandler sched r).response =
        { status := some 200,
          body := String.intercalate " " ((rangeInts fromV toV).map SingleFizzBuzz) } ∧
      ((FizzBuzzHandler sched r).started : Int) = toV - fromV + 1) ∧
    ∃ ext, (FizzBuzzHandler (sched ++ ext) r).ending = Ending.returned := by
  have hmin := (Atoi_range _ _ hf).1
  have hinv := inv_run fromV toV hmin h1 h3 h2 sched
  have hcr := hinv.hcr
  refine ⟨?_, ?_, ?_⟩
  · rw [accepted_unfold sched r fromV toV hm hf ht h1 h2]
    unfold Machine.outcome
    rw [if_neg (by rw [hcr]; simp)]
    split
    · exact Or.inr rfl
    · exact Or.inl rfl
  · rw [accepted_unfold sched r fromV toV hm hf ht h1 h2]
    unfold Machine.outcome
    rw [if_neg (by rw [hcr]; simp)]
    split
    · rename_i hret
      intro _
      obtain ⟨_, _, hst, _, _, hres⟩ := hinv.at_join h1 (Or.inr hret)
      refine ⟨?_, hst⟩
      simp only [Run.response, Sink.serve, List.foldl_cons, List.foldl_nil, Sink.call,
        Sink.fresh, hres]
      simp
    · intro h
      simp at h
  · obtain ⟨ext, hext⟩ := exists_completion fromV toV h1 h3 hmin h2 _ _ hinv (le_refl _)
    refine ⟨ext, ?_⟩
    rw [accepted_unfold (sched ++ ext) r fromV toV hm hf ht h1 h2, run_append]
    have hinv2 := inv_run fromV toV hmin h1 h3 h2 (sched ++ ext)
    rw [run_append] at hinv2
    unfold Machine.outcome
    rw [if_neg (by rw [hinv2.hcr]; simp), if_pos hext]

/-- The assignments to the result slots for an accepted range whose upper bound
is below the largest integer, under every schedule: each is made by the
goroutine of an integer `i` of the range to slot `i - from`, no slot is assigned
twice, and once the wait loop is over every slot has been assigned exactly
once. -/
theorem writes_disjoint_complete (sched : List Choice) (fromV toV : Int)
    (hmin : minInt ≤ fromV) (h1 : fromV ≤ toV) (h2 : toV - fromV ≤ 100) (h3 : toV < maxInt) :
    (∀ w ∈ ((Machine.init fromV toV (toV - fromV + 1).toNat).run sched).writes,
      fromV ≤ w.1 ∧ w.1 ≤ toV ∧ (w.2 : Int) = w.1 - fromV) ∧
    (((Machine.init fromV toV (toV - fromV + 1).toNat).run sched).writes.map Prod.snd).Nodup ∧
    ((((Machine.init fromV toV (toV - fromV + 1).toNat).run sched).pc = Pc.join ∨
      ((Machine.init fromV toV (toV - fromV + 1).toNat).run sched).pc = Pc.returned) →
      ∀ k : Nat, (k : Int) < toV - fromV + 1 →
        (((Machine.init fromV toV (toV - fromV + 1).toNat).run sched).writes.map
          Prod.snd).count k = 1) := by
  have hinv := inv_run fromV toV hmin h1 h3 h2 sched
  refine ⟨?_, hinv.slots_nodup, fun hpc => (hinv.at_join h1 hpc).2.2.2.2.1⟩
  intro w hw
  obtain ⟨a, b, c⟩ := hinv.hwr w hw
  have := hinv.bound_le
  exact ⟨a, by omega, by omega⟩

set_option maxRecDepth 100000

/-- The example of the specification, `GET /range-fizzbuzz?from=1&to=15`, with
the goroutines run in the order they were started. -/
theorem FizzBuzzHandler_one_to_fifteen :
    (FizzBuzzHandler (fifoSchedule 15) (rangeRequest "GET" "1" "15")).response =
      { status := some 200,
        body := "1 2 Fizz 4 Buzz Fizz 7 8 Fizz Buzz 11 Fizz 13 14 FizzBuzz" } := by
  decide

/-- The same request with the goroutines run in the opposite order, each as
soon as the handler has received the signal of the one before: the response is
the same. -/
theorem FizzBuzzHandler_three_reversed :
    (FizzBuzzHandler
        ([Choice.main, Choice.main, Choice.main, Choice.main,
          Choice.task 2, Choice.task 2, Choice.main,
          Choice.task 1, Choice.task 0, Choice.task 1, Choice.task 0,
          Choice.main, Choice.main, Choice.main, Choice.main])
        (rangeRequest "GET" "4" "6")).response =
      { status := some 200, body := "4 Buzz Fizz" } ∧
    (FizzBuzzHandler (fifoSchedule 3) (rangeRequest "GET" "4" "6")).response =
      { status := some 200, body := "4 Buzz Fizz" } := by
  decide

/-- The range `[1, 15]` with the goroutines run in the order they were started. -/
theorem FizzBuzzHandler_serves_range_witness :
    (FizzBuzzHandler (fifoSchedule 15) (rangeRequest "GET" "1" "15")).response =
      { status := some 200,
        body := String.intercalate " " ((rangeInts 1 15).map SingleFizzBuzz) } ∧
    ((FizzBuzzHandler (fifoSchedule 15) (rangeRequest "GET" "1" "15")).started : Int)
      = 15 - 1 + 1 :=
  (FizzBuzzHandler_serves_range (fifoSchedule 15) (rangeRequest "GET" "1" "15") 1 15 rfl
    (by decide) (by decide) (by decide) (by decide) (by decide)).2.1 (by decide)

/-- The range `[1, 3]` at the return of the handler. -/
theorem writes_disjoint_complete_witness :
    ∀ k : Nat, (k : Int) < 3 - 1 + 1 →
      (((Machine.init 1 3 (3 - 1 + 1 : Int).toNat).run (fifoSchedule 3)).writes.map
        Prod.snd).count k = 1 :=
  (writes_disjoint_complete (fifoSchedule 3) 1 3 (by decide) (by decide) (by decide)
    (by decide)).2.2 (Or.inr (by decide))

/-- The example of the specification, `GET /range-fizzbuzz?from=0&to=150`. -/
theorem FizzBuzzHandler_rejects_wide_witness :
    (FizzBuzzHandler [] (rangeRequest "GET" "0" "150")).response =
      { status := some 400, body := "invalid 'from' or 'to' parameters\n" } :=
  (FizzBuzzHandler_rejects_wide [] (rangeRequest "GET" "0" "150") 0 150 rfl
    (by decide) (by decide) (by decide) (by decide)).1

/-- The handler panics or crashes only on parameters at which its machine
arithmetic wraps around: `to` is the largest integer, or the true difference
`to - from` exceeds it. -/
theorem faults_only_on_wrap (sched : List Choice) (r : Request)
    (h : (FizzBuzzHandler sched r).ending = Ending.panicked ∨
      (FizzBuzzHandler sched r).ending = Ending.crashed) :
    ∃ fromV toV, Atoi (r.queryGet "from") = some fromV ∧ Atoi (r.queryGet "to") = some toV ∧
      (toV = maxInt ∨ toV - fromV > maxInt) := by
  by_cases hm : r.Method = "GET"
  · cases hf : Atoi (r.queryGet "from") with
    | none =>
      rw [FizzBuzzHandler_unparsed sched r hm (Or.inl hf)] at h
      simp at h
    | some fromV =>
      cases ht : Atoi (r.queryGet "to") with
      | none =>
        rw [FizzBuzzHandler_unparsed sched r hm (Or.inr ht)] at h
        simp at h
      | some toV =>
        refine ⟨fromV, toV, rfl, rfl, ?_⟩
        by_contra hcon
        have hfr := Atoi_range _ _ hf
        have htr := Atoi_range _ _ ht
        have h3 : toV < maxInt := by omega
        have h4 : toV - fromV ≤ maxInt := by omega
        by_cases hgt : fromV > toV
        · rw [FizzBuzzHandler_parsed sched r fromV toV hm hf ht, if_pos (Or.inl hgt)] at h
          simp at h
        · by_cases hwide : toV - fromV > 100
          · have w1 : wrap (toV - fromV) = toV - fromV := by
              apply wrap_of_range
              · unfold minInt; omega
              · exact h4
            rw [FizzBuzzHandler_parsed sched r fromV toV hm hf ht, w1,
              if_pos (Or.inr hwide)] at h
            simp at h
          · have hs := (FizzBuzzHandler_serves_range sched r fromV toV hm hf ht
              (by omega) (by omega) h3).1
            rcases h with h | h <;> rcases hs with hs | hs <;> rw [h] at hs <;> simp at hs
  · rw [FizzBuzzHandler_other_method sched r hm] at h
    simp at h

/-- The request `from=-1&to=9223372036854775807`, on which the handler panics. -/
theorem faults_only_on_wrap_witness :
    ∃ fromV toV,
      Atoi ((rangeRequest "GET" "-1" "9223372036854775807").queryGet "from") = some fromV ∧
      Atoi ((rangeRequest "GET" "-1" "9223372036854775807").queryGet "to") = some toV ∧
      (toV = maxInt ∨ toV - fromV > maxInt) :=
  faults_only_on_wrap [] (rangeRequest "GET" "-1" "9223372036854775807") (Or.inl (by decide))

/-! ## Requests at the ends of the integer range -/

/-- With `to` equal to the largest integer the condition `i <= to` of the spawn
loop holds for every `i`, so the handler's goroutine stays in the loop. -/
theorem spawn_loop_stays (m : Machine) (h : m.toV = maxInt)
    (hp : ∃ i, m.pc = Pc.spawn i ∧ i ≤ maxInt) (sched : List Choice) :
    (m.run sched).toV = maxInt ∧ ∃ i, (m.run sched).pc = Pc.spawn i ∧ i ≤ maxInt := by
  refine run_invariant (fun m => m.toV = maxInt ∧ ∃ i, m.pc = Pc.spawn i ∧ i ≤ maxInt)
    ?_ sched m ⟨h, hp⟩
  rintro m m2 ⟨ht, i, hi, hle⟩ _ _ hs
  cases hs with
  | spawn j hpc _ => exact ⟨ht, _, rfl, wrap_le_maxInt _⟩
  | spawnExit j hpc hgt =>
    rw [hi] at hpc; cases hpc
    exact absurd (ht ▸ hle) hgt
  | recv j hpc _ _ => rw [hi] at hpc; cases hpc
  | waitExit j hpc _ => rw [hi] at hpc; cases hpc
  | join hpc => rw [hi] at hpc; cases hpc
  | write k t _ _ _ => exact ⟨ht, i, hi, hle⟩
  | crash k t _ _ _ => exact ⟨ht, i, hi, hle⟩
  | send k t _ _ _ => exact ⟨ht, i, hi, hle⟩

/-- With `to` equal to the largest integer, `k` steps of the handler in its
spawn loop start `k` goroutines. -/
theorem mains_started (k : Nat) : ∀ (m : Machine), m.toV = maxInt → m.crashed = false →
    (∃ i, m.pc = Pc.spawn i ∧ i ≤ maxInt) →
    (m.run (List.replicate k Choice.main)).started = m.started + k := by
  induction k with
  | zero => intro m _ _ _; rfl
  | succ k ih =>
    rintro m ht hc ⟨i, hi, hle⟩
    have hstep : (m.step Choice.main).toV = maxInt ∧ (m.step Choice.main).crashed = false ∧
        (m.step Choice.main).pc = Pc.spawn (wrap (i + 1)) ∧
        (m.step Choice.main).started = m.started + 1 := by
      simp [Machine.step, Machine.stepMain, hc, hi, ht, hle]
    obtain ⟨h1, h2, h3, h4⟩ := hstep
    rw [List.replicate_succ, run_cons, ih _ h1 h2 ⟨_, h3, wrap_le_maxInt _⟩, h4]
    omega

/-- C2 (failing input): for `GET /range-fizzbuzz?from=9223372036854775805&to=9223372036854775807`
the claimed response is status 200 with body "Buzz Fizz 9223372036854775807",
but under every schedule the handler makes no call on its writer and never
returns: the response stays without status and body. -/
theorem FizzBuzzHandler_top_range_no_response :
    String.intercalate " " (List.map SingleFizzBuzz
      [9223372036854775805, 9223372036854775806, 9223372036854775807])
      = "Buzz Fizz 9223372036854775807" ∧
    ∀ sched : List Choice,
      (FizzBuzzHandler sched
        (rangeRequest "GET" "9223372036854775805" "9223372036854775807")).response = Sink.fresh ∧
      (FizzBuzzHandler sched
        (rangeRequest "GET" "9223372036854775805" "9223372036854775807")).ending
          ≠ Ending.returned := by
  refine ⟨by decide, fun sched => ?_⟩
  have hf : Atoi ((rangeRequest "GET" "9223372036854775805" "9223372036854775807").queryGet "from")
      = some 9223372036854775805 := by decide
  have ht : Atoi ((rangeRequest "GET" "9223372036854775805" "9223372036854775807").queryGet "to")
      = some maxInt := by decide
  rw [FizzBuzzHandler_parsed sched _ _ _ rfl hf ht]
  rw [if_neg (by decide), if_neg (by decide)]
  obtain ⟨_, i, hi, _⟩ := spawn_loop_stays
    (Machine.init 9223372036854775805 maxInt
      (wrap (wrap (maxInt - 9223372036854775805) + 1)).toNat) rfl
    ⟨_, rfl, by decide⟩ sched
  have hne : ((Machine.init 9223372036854775805 maxInt
      (wrap (wrap (maxInt - 9223372036854775805) + 1)).toNat).run sched).pc ≠ Pc.returned := by
    rw [hi]; exact fun h => Pc.noConfusion h
  obtain ⟨h1, h2⟩ := outcome_not_returned _ hne
  exact ⟨by rw [Run.response, h1]; rfl, h2⟩

/-- C3 (failing input): for `GET /range-fizzbuzz?from=-9223372036854775808&to=9223372036854775807`
the true difference is far above 100, yet the machine subtraction yields -1 and
the request passes the bounds check: under every schedule the handler makes no
call on its writer (no status 400) and does not return, its first loop
iteration starts a goroutine, and that goroutine faults on the empty slice. -/
theorem FizzBuzzHandler_full_range_not_rejected :
    maxInt - minInt > 100 ∧ wrap (maxInt - minInt) = -1 ∧
    (∀ sched : List Choice,
      (FizzBuzzHandler sched
        (rangeRequest "GET" "-9223372036854775808" "9223372036854775807")).calls = [] ∧
      (FizzBuzzHandler sched
        (rangeRequest "GET" "-9223372036854775808" "9223372036854775807")).response.status
          ≠ some 400 ∧
      (FizzBuzzHandler sched
        (rangeRequest "GET" "-9223372036854775808" "9223372036854775807")).ending
          ≠ Ending.returned) ∧
    FizzBuzzHandler [Choice.main]
        (rangeRequest "GET" "-9223372036854775808" "9223372036854775807")
      = { calls := [], ending := Ending.running, parsed := true, started := 1 } ∧
    FizzBuzzHandler [Choice.main, Choice.task 0]
        (rangeRequest "GET" "-9223372036854775808" "9223372036854775807")
      = { calls := [], ending := Ending.crashed, parsed := true, started := 1 } := by
  refine ⟨by decide, by decide, fun sched => ?_, by decide, by decide⟩
  have hf : Atoi ((rangeRequest "GET" "-9223372036854775808" "9223372036854775807").queryGet
      "from") = some minInt := by decide
  have ht : Atoi ((rangeRequest "GET" "-9223372036854775808" "9223372036854775807").queryGet
      "to") = some maxInt := by decide
  rw [FizzBuzzHandler_parsed sched _ _ _ rfl hf ht]
  rw [if_neg (by decide), if_neg (by decide)]
  obtain ⟨_, i, hi, _⟩ := spawn_loop_stays
    (Machine.init minInt maxInt (wrap (wrap (maxInt - minInt) + 1)).toNat) rfl
    ⟨_, rfl, by decide⟩ sched
  have hne : ((Machine.init minInt maxInt
      (wrap (wrap (maxInt - minInt) + 1)).toNat).run sched).pc ≠ Pc.returned := by
    rw [hi]; exact fun h => Pc.noConfusion h
  obtain ⟨h1, h2⟩ := outcome_not_returned _ hne
  refine ⟨h1, ?_, h2⟩
  rw [Run.response, h1]
  decide

/-- C8 (failing inputs): for `GET /range-fizzbuzz?from=-1&to=9223372036854775807`
the request passes the bounds check and the length `to-from+1` of the result
slice is -9223372036854775807, so `make` panics under every schedule; and for
`from=9223372036854775806&to=9223372036854775807` the third goroutine started
indexes the two-element slice at 2 and the process crashes. -/
theorem FizzBuzzHandler_faults :
    wrap (wrap (maxInt - (-1)) + 1) = -9223372036854775807 ∧
    (∀ sched : List Choice,
      FizzBuzzHandler sched (rangeRequest "GET" "-1" "9223372036854775807")
        = { calls := [], ending := Ending.panicked, parsed := true, started := 0 }) ∧
    FizzBuzzHandler [Choice.main, Choice.main, Choice.main, Choice.task 2]
        (rangeRequest "GET" "9223372036854775806" "9223372036854775807")
      = { calls := [], ending := Ending.crashed, parsed := true, started := 3 } := by
  refine ⟨by decide, fun sched => ?_, by decide⟩
  have hf : Atoi ((rangeRequest "GET" "-1" "9223372036854775807").queryGet "from")
      = some (-1) := by decide
  have ht : Atoi ((rangeRequest "GET" "-1" "9223372036854775807").queryGet "to")
      = some maxInt := by decide
  rw [FizzBuzzHandler_parsed sched _ _ _ rfl hf ht]
  rw [if_neg (by decide), if_pos (by decide)]

/-- C9 (failing input): for `GET /range-fizzbuzz?from=9223372036854775807&to=9223372036854775807`
the result slice has the single slot 0, and the second goroutine the spawn loop
starts is the one for the integer -9223372036854775808, whose index `i - from`
is 1, outside `[0, to - from]`; running it crashes the process before any slot
is read. -/
theorem spawn_loop_starts_task_outside_range :
    ((Machine.init maxInt maxInt 1).run [Choice.main, Choice.main]).tasks
      = [{ i := maxInt, wrote := false }, { i := minInt, wrote := false }] ∧
    ((Machine.init maxInt maxInt 1).run [Choice.main, Choice.main]).results.length = 1 ∧
    wrap (minInt - maxInt) = 1 ∧
    ((Machine.init maxInt maxInt 1).run [Choice.main, Choice.main, Choice.task 1]).crashed
      = true ∧
    FizzBuzzHandler [Choice.main, Choice.main, Choice.task 1]
        (rangeRequest "GET" "9223372036854775807" "9223372036854775807")
      = { calls := [], ending := Ending.crashed, parsed := true, started := 2 } := by
  decide

/-- C10 (failing input): for `GET /range-fizzbuzz?from=9223372036854775807&to=9223372036854775807`
one goroutine is due, but the spawn loop starts a goroutine at each of its
iterations without end (`k` steps of the handler start `k` goroutines), its loop
variable wrapping around below `to`, and under no schedule does the handler
leave the loop or return. -/
theorem spawn_loop_never_ends :
    (∀ k : Nat,
      (FizzBuzzHandler (List.replicate k Choice.main)
        (rangeRequest "GET" "9223372036854775807" "9223372036854775807")).started = k) ∧
    (∀ sched : List Choice,
      (∃ i, ((Machine.init maxInt maxInt 1).run sched).pc = Pc.spawn i) ∧
      (FizzBuzzHandler sched
        (rangeRequest "GET" "9223372036854775807" "9223372036854775807")).ending
          ≠ Ending.returned) := by
  have hf : Atoi ((rangeRequest "GET" "9223372036854775807" "9223372036854775807").queryGet
      "from") = some maxInt := by decide
  have ht : Atoi ((rangeRequest "GET" "9223372036854775807" "9223372036854775807").queryGet
      "to") = some maxInt := by decide
  have hn : (wrap (wrap (maxInt - maxInt) + 1)).toNat = 1 := by decide
  constructor
  · intro k
    rw [FizzBuzzHandler_parsed _ _ _ _ rfl hf ht]
    rw [if_neg (by decide), if_neg (by decide), hn]
    have h := mains_started k (Machine.init maxInt maxInt 1) rfl rfl ⟨_, rfl, by decide⟩
    have e : (Machine.init maxInt maxInt 1).started = 0 := rfl
    rw [e, Nat.zero_add] at h
    unfold Machine.outcome
    split
    · exact h
    · split <;> exact h
  · intro sched
    rw [FizzBuzzHandler_parsed sched _ _ _ rfl hf ht]
    rw [if_neg (by decide), if_neg (by decide), hn]
    obtain ⟨_, i, hi, _⟩ := spawn_loop_stays (Machine.init maxInt maxInt 1) rfl
      ⟨_, rfl, by decide⟩ sched
    have hne : ((Machine.init maxInt maxInt 1).run sched).pc ≠ Pc.returned := by
      rw [hi]; exact fun h => Pc.noConfusion h
    exact ⟨⟨i, hi⟩, (outcome_not_returned _ hne).2⟩

/-! ## The middleware -/

/-- C6 (failing input): served directly, `FizzBuzzHandler` answers
`POST /range-fizzbuzz?from=1&to=5` with status 405 and
`GET /range-fizzbuzz?from=5&to=3` with status 400; served through `Logging`, the
same bodies reach the underlying writer but with status 200, because
`responseWriter.WriteHeader` does not pass the code on. -/
theorem Logging_delivers_200_for_errors (sched : List Choice) :
    (FizzBuzzHandler sched (rangeRequest "POST" "1" "5")).response
      = { status := some 405, body := "Method Not Allowed\n" } ∧
    (Logging (FizzBuzzHandler sched) Sink.fresh (rangeRequest "POST" "1" "5")).writer.ResponseWriter
      = { status := some 200, body := "Method Not Allowed\n" } ∧
    (FizzBuzzHandler sched (rangeRequest "GET" "5" "3")).response
      = { status := some 400, body := "invalid 'from' or 'to' parameters\n" } ∧
    (Logging (FizzBuzzHandler sched) Sink.fresh (rangeRequest "GET" "5" "3")).writer.ResponseWriter
      = { status := some 200, body := "invalid 'from' or 'to' parameters\n" } := by
  have h1 := FizzBuzzHandler_other_method sched (rangeRequest "POST" "1" "5") (by decide)
  have h2 := FizzBuzzHandler_parsed sched (rangeRequest "GET" "5" "3") 5 3 rfl
    (by decide) (by decide)
  rw [if_pos (by decide)] at h2
  unfold Logging
  rw [h1, h2]
  decide

/-- C7 (failing input): a handler that writes the body "ok" and never calls
`WriteHeader` produces a response with status 200, served directly as well as
through `Logging`, but the status code the wrapper has recorded after the
handler returned is 0, and 0 is the status of the log line; the recorded body
is the body written. -/
theorem Logging_misses_implicit_status :
    (bodyOnly (rangeRequest "GET" "1" "5")).response = { status := some 200, body := "ok" } ∧
    (Logging bodyOnly Sink.fresh (rangeRequest "GET" "1" "5")).writer.ResponseWriter
      = { status := some 200, body := "ok" } ∧
    (Logging bodyOnly Sink.fresh (rangeRequest "GET" "1" "5")).writer.statusCode = 0 ∧
    (Logging bodyOnly Sink.fresh (rangeRequest "GET" "1" "5")).log
      = some { responseStatus := 0, responseBody := "ok" } := by
  decide

/-- Two further handlers on which the recorded status code differs from the
status of the response produced: after `WriteHeader(404)` and `WriteHeader(500)`
the response has status 404 and the wrapper has recorded 500; after a `Write`
followed by `WriteHeader(404)` the response has status 200 and the wrapper has
recorded 404. -/
theorem Logging_records_later_header :
    (twoHeaders (rangeRequest "GET" "1" "5")).response.status = some 404 ∧
    (Logging twoHeaders Sink.fresh (rangeRequest "GET" "1" "5")).writer.statusCode = 500 ∧
    (lateHeader (rangeRequest "GET" "1" "5")).response.status = some 200 ∧
    (Logging lateHeader Sink.fresh (rangeRequest "GET" "1" "5")).writer.statusCode = 404 := by
  decide

/-- What the wrapper has recorded after a sequence of calls. -/
theorem foldl_call_records (cs : List Call) : ∀ rr : responseWriter,
    (cs.foldl responseWriter.call rr).statusCode = lastStatus cs rr.statusCode ∧
    (cs.foldl responseWriter.call rr).body = rr.body ++ written cs := by
  induction cs with
  | nil => intro rr; simp [lastStatus, written]
  | cons c cs ih =>
    intro rr
    cases c with
    | WriteHeader code =>
      simp only [List.foldl_cons, responseWriter.call, lastStatus, written]
      exact ih (rr.WriteHeader code)
    | Write b =>
      simp only [List.foldl_cons, responseWriter.call, lastStatus, written]
      have h := ih (rr.Write b)
      simp only [responseWriter.Write] at h ⊢
      rw [h.1, h.2, String.append_assoc]
      exact ⟨rfl, rfl⟩

/-- What the wrapper holds after any handler has run inside `Logging`: the
recorded `statusCode` is the code of the last `WriteHeader` call the handler
made, and 0 if it made none, and the recorded body is the concatenation, in
order, of everything the handler passed to `Write`. -/
theorem Logging_records (next : Handler) (w : Sink) (r : Request) :
    (Logging next w r).writer.statusCode = lastStatus (next r).calls 0 ∧
    (Logging next w r).writer.body = written (next r).calls := by
  have h := foldl_call_records (next r).calls
    { ResponseWriter := w, statusCode := 0, body := "" }
  simp only [Logging]
  rw [h.1, h.2]
  simp

/-- The embedded writer of the wrapper sees the `Write` calls and no other. -/
theorem foldl_call_forwards (cs : List Call) : ∀ rr : responseWriter,
    (cs.foldl responseWriter.call rr).ResponseWriter
      = rr.ResponseWriter.serve (cs.filter Call.isWrite) := by
  induction cs with
  | nil => intro rr; rfl
  | cons c cs ih =>
    intro rr
    cases c with
    | WriteHeader code =>
      simp only [List.foldl_cons, responseWriter.call, List.filter_cons, Call.isWrite]
      exact ih (rr.WriteHeader code)
    | Write b =>
      simp only [List.foldl_cons, responseWriter.call, List.filter_cons, Call.isWrite,
        if_true, Sink.serve]
      exact ih (rr.Write b)

/-- What `Logging` delivers, for every handler: the underlying writer receives
the handler's `Write` calls only, so the body is the one the handler wrote and
the status is never one the handler set. -/
theorem Logging_delivers (next : Handler) (w : Sink) (r : Request) :
    (Logging next w r).writer.ResponseWriter = w.serve ((next r).calls.filter Call.isWrite) := by
  simp only [Logging]
  exact foldl_call_forwards (next r).calls _

/-- The calls `FizzBuzzHandler` has made when it has returned: those of
`http.Error`, or the body followed by `WriteHeader(200)`. -/
theorem FizzBuzzHandler_calls (sched : List Choice) (r : Request)
    (h : (FizzBuzzHandler sched r).ending = Ending.returned) :
    (∃ msg code, (FizzBuzzHandler sched r).calls = httpError msg code) ∨
    (∃ b, (FizzBuzzHandler sched r).calls = [Call.Write b, Call.WriteHeader 200]) := by
  by_cases hm : r.Method = "GET"
  · cases hf : Atoi (r.queryGet "from") with
    | none =>
      rw [FizzBuzzHandler_unparsed sched r hm (Or.inl hf)]
      exact Or.inl ⟨_, _, rfl⟩
    | some fromV =>
      cases ht : Atoi (r.queryGet "to") with
      | none =>
        rw [FizzBuzzHandler_unparsed sched r hm (Or.inr ht)]
        exact Or.inl ⟨_, _, rfl⟩
      | some toV =>
        rw [FizzBuzzHandler_parsed sched r fromV toV hm hf ht] at h ⊢
        split
        · exact Or.inl ⟨_, _, rfl⟩
        · rename_i h1
          rw [if_neg h1] at h
          split
          · rename_i h2
            rw [if_pos h2] at h
            simp at h
          · rename_i h2
            rw [if_neg h2] at h
            unfold Machine.outcome at h ⊢
            split
            · rename_i h3
              rw [if_pos h3] at h
              simp at h
            · rename_i h3
              rw [if_neg h3] at h
              split
              · exact Or.inr ⟨_, rfl⟩
              · rename_i h4
                rw [if_neg h4] at h
                simp at h
  · rw [FizzBuzzHandler_other_method sched r hm]
    exact Or.inl ⟨_, _, rfl⟩

/-- For `FizzBuzzHandler`, which calls `WriteHeader` on every path, the status
code the wrapper records is the status of the response the handler produces
when served directly. -/
theorem Logging_records_FizzBuzzHandler (sched : List Choice) (r : Request)
    (h : (FizzBuzzHandler sched r).ending = Ending.returned) :
    some (Logging (FizzBuzzHandler sched) Sink.fresh r).writer.statusCode
      = (FizzBuzzHandler sched r).response.status := by
  have hrec := (foldl_call_records (FizzBuzzHandler sched r).calls
    { ResponseWriter := Sink.fresh, statusCode := 0, body := "" }).1
  simp only [Logging, Run.response]
  rw [hrec]
  rcases FizzBuzzHandler_calls sched r h with ⟨msg, code, e⟩ | ⟨b, e⟩
  · rw [e]; rfl
  · rw [e]; rfl

/-- The rejected request `from=5&to=3`: recorded and direct status are both 400. -/
theorem Logging_records_FizzBuzzHandler_witness :
    some (Logging (FizzBuzzHandler []) Sink.fresh (rangeRequest "GET" "5" "3")).writer.statusCode
      = (FizzBuzzHandler [] (rangeRequest "GET" "5" "3")).response.status :=
  Logging_records_FizzBuzzHandler [] (rangeRequest "GET" "5" "3") (by decide)

/-- The status code of a response served directly whose first call is
`WriteHeader(c)`. -/
theorem serve_status_of_fixed (cs : List Call) : ∀ (s : Sink) (c : Int),
    s.status = some c → (s.serve cs).status = some c := by
  induction cs with
  | nil => intro s c h; exact h
  | cons x xs ih =>
    intro s c h
    cases x with
    | WriteHeader d =>
      simp only [Sink.serve, List.foldl_cons, Sink.call, h, Option.isSome_some, if_true]
      exact ih s c h
    | Write b =>
      simp only [Sink.serve, List.foldl_cons, Sink.call, h, Option.getD_some]
      exact ih _ c rfl

/-- A sequence of `Write` calls leaves the recorded status code as it is. -/
theorem lastStatus_of_writes (ws : List Call) (c : Int)
    (h : ws.all Call.isWrite = true) : lastStatus ws c = c := by
  induction ws with
  | nil => rfl
  | cons x xs ih =>
    cases x with
    | WriteHeader d => simp [Call.isWrite] at h
    | Write b =>
      simp only [List.all_cons, Call.isWrite, Bool.true_and] at h
      simp only [lastStatus]
      exact ih h

/-- Where the recorded status code is right: for a handler that calls
`WriteHeader(c)` once, before anything else, and then only writes, the status
code the wrapper has recorded is the status of the response the handler
produces. -/
theorem Logging_records_leading_header (next : Handler) (r : Request) (c : Int)
    (ws : List Call) (hc : (next r).calls = Call.WriteHeader c :: ws)
    (hw : ws.all Call.isWrite = true) :
    some (Logging next Sink.fresh r).writer.statusCode = (next r).response.status := by
  rw [(Logging_records next Sink.fresh r).1, hc]
  simp only [lastStatus, Run.response, hc]
  rw [lastStatus_of_writes ws c hw]
  have h := serve_status_of_fixed ws (Sink.fresh.call (Call.WriteHeader c)) c rfl
  simp only [Sink.serve, List.foldl_cons] at h ⊢
  rw [h]

/-- The rejection of `POST /range-fizzbuzz?from=1&to=5`, one `WriteHeader(405)`
followed by one `Write`. -/
theorem Logging_records_leading_header_witness :
    some (Logging (FizzBuzzHandler []) Sink.fresh (rangeRequest "POST" "1" "5")).writer.statusCode
      = (FizzBuzzHandler [] (rangeRequest "POST" "1" "5")).response.status :=
  Logging_records_leading_header (FizzBuzzHandler []) (rangeRequest "POST" "1" "5") 405
    [Call.Write "Method Not Allowed\n"] (by decide) (by decide)

end FizzBuzz
